import Mathlib

/-
Verification of the lumina playback core: a shallow embedding of the
highlight state machine (src/services/highlightState.ts, mirrored in
src/unnamed/part_003), the highlight event queue flush, the look-ahead
scheduler tick, and the transport handlers from src/App.tsx, together with
proofs of the specification's claims about them.

Modelling conventions:
- JavaScript strings are modelled as their character sequences (`Str`,
  i.e. `List Char`).
- JavaScript `Map`s are modelled as association lists in insertion order
  (`jsGet` finds the first entry, `jsSet` replaces the first entry or
  appends, `jsDelete` removes the first entry); a real `Map` never holds
  two entries with the same key, which corresponds to the `Nodup`
  hypotheses carried by some theorems.
- JavaScript numbers appearing as event note numbers are modelled by
  `JSNum` (a finite rational, `NaN`, or an infinity); other numeric
  fields that the program only ever uses with finite values (times,
  counts, rates) are modelled as rationals or integers directly.
- Count arithmetic uses `ℤ`, so the source's `Math.max(0, c - 1)`
  clamping is `max 0 (c - 1)` and is not a typing artefact.
- Code that would throw a `TypeError` (indexing one of the 128-entry
  per-pitch arrays with a fractional index) is modelled by `Option`:
  `none` is a thrown exception, in which case the caller's state is
  unchanged because the mutated clone is discarded.
-/

namespace Lumina

/-- JavaScript strings, modelled as character sequences. -/
abbrev Str := List Char

/-- A JavaScript number as it can appear in a `HighlightEvent.noteNumber`:
a finite value, `NaN`, or an infinity. -/
inductive JSNum where
  | num (q : ℚ)
  | nan
  | posInf
  | negInf
deriving DecidableEq

/-! ### Association-list model of JavaScript `Map` -/

/-- `Map.get`: value of the first entry with the given key. -/
def jsGet {α β : Type} [DecidableEq α] : List (α × β) → α → Option β
  | [], _ => none
  | e :: rest, k => if e.1 = k then some e.2 else jsGet rest k

/-- `Map.set`: replace the first entry with the given key, or append. -/
def jsSet {α β : Type} [DecidableEq α] : List (α × β) → α → β → List (α × β)
  | [], k, v => [(k, v)]
  | e :: rest, k, v => if e.1 = k then (k, v) :: rest else e :: jsSet rest k v

/-- `Map.delete`: remove the first entry with the given key. -/
def jsDelete {α β : Type} [DecidableEq α] : List (α × β) → α → List (α × β)
  | [], _ => []
  | e :: rest, k => if e.1 = k then rest else e :: jsDelete rest k

/-- The keys of a map, in insertion order. -/
def keysOf {α β : Type} (m : List (α × β)) : List α := m.map Prod.fst

/-- Sum of all values stored in a map. -/
def mapSum {α : Type} (m : List (α × ℤ)) : ℤ := (m.map Prod.snd).sum

/-! ### Key encoding `sourceKey:noteNumber` and its parsing -/

/-- Decimal representation of a natural number, as the JS template
literal renders an integer note number. -/
def natRepr (n : Nat) : Str := (Nat.repr n).data

/-- The string key `sourceKey + ":" + noteNumber` used by
`countsByActiveKey`. -/
def encodeKey (s : Str) (p : Fin 128) : Str := s ++ ':' :: natRepr p.val

/-- Split a string at its first colon (`indexOf(':')` followed by the two
`slice` calls in `clearHighlightsByPredicate`); `none` when there is no
colon. -/
def splitFirstColon : Str → Option (Str × Str)
  | [] => none
  | c :: rest =>
    if c = ':' then some ([], rest)
    else (splitFirstColon rest).map (fun q => (c :: q.1, q.2))

/-- Numeric value of a decimal digit character. -/
def charDigit? (c : Char) : Option Nat :=
  if '0' ≤ c ∧ c ≤ '9' then some (c.toNat - '0'.toNat) else none

/-- Accumulator loop for `parseNat`. -/
def parseNatCore : Nat → Str → Option Nat
  | acc, [] => some acc
  | acc, c :: rest =>
    match charDigit? c with
    | some d => parseNatCore (10 * acc + d) rest
    | none => none

/-- Models JavaScript `Number(str)` on the strings produced by the key
encoding above: a nonempty decimal digit string parses to its value, and
any string holding a non-digit character (in particular a colon) is
`NaN`, i.e. `none`.  Strings outside this fragment (empty strings,
signs, decimal points, ...) never occur as the note part of a key built
by the highlight state machine. -/
def parseNat : Str → Option Nat
  | [] => none
  | l => parseNatCore 0 l

/-- Split a string at its last colon: the decoding direction of
`encodeKey`, used to state which pitch a stored key belongs to. -/
def splitLastColon (k : Str) : Option (Str × Str) :=
  (splitFirstColon k.reverse).map (fun q => (q.2.reverse, q.1.reverse))

/-- Decode a stored active key into its true `(sourceKey, pitch)` pair.
`encodeKey` always puts the note digits after the last colon of the key,
so this is its exact inverse; it is the vocabulary used to state the
conservation claim's "sum over keys `(s, p)`". -/
def decodeKey (k : Str) : Option (Str × Fin 128) :=
  match splitLastColon k with
  | none => none
  | some q =>
    match parseNat q.2 with
    | none => none
    | some m => if h : m < 128 then some (q.1, ⟨m, h⟩) else none

/-! ### The highlight state (src/services/highlightState.ts) -/

/-- `'on' | 'off'`. -/
inductive HighlightEventType where
  | on
  | off
deriving DecidableEq

/-- A `HighlightEvent`: kind, note number, source key, due time in ms. -/
structure HighlightEvent where
  type : HighlightEventType
  noteNumber : JSNum
  sourceKey : Str
  timeMs : ℚ
deriving DecidableEq

/-- The `HighlightState` record.  The four 128-entry per-pitch arrays are
modelled as functions on `Fin 128`; every access the code performs on
them is through an index already checked to be in `[0, 128)`. -/
structure HighlightState where
  countsByActiveKey : List (Str × ℤ)
  totalsByNote : Fin 128 → ℤ
  sourcesByNote : Fin 128 → List (Str × ℤ)
  lastNoteOnTimeMs : Fin 128 → Option ℚ
  lastNoteOffTimeMs : Fin 128 → Option ℚ
  lastSourceKey : Fin 128 → Option Str
  lastPulseTimeMs : Fin 128 → Option ℚ

/-- `createHighlightState()`: everything empty / zero. -/
def createHighlightState : HighlightState where
  countsByActiveKey := []
  totalsByNote := fun _ => 0
  sourcesByNote := fun _ => []
  lastNoteOnTimeMs := fun _ => none
  lastNoteOffTimeMs := fun _ => none
  lastSourceKey := fun _ => none
  lastPulseTimeMs := fun _ => none

/-- `clampNoteNumber`: `null` unless the number is finite and in
`[0, 128)`.  (`NaN` and the infinities fail the `Number.isFinite`
check.) -/
def clampNoteNumber (n : JSNum) : Option ℚ :=
  match n with
  | .num q => if q < 0 ∨ 128 ≤ q then none else some q
  | _ => none

/-- A clamped note number as an array index.  The source indexes the
128-entry arrays with the clamped value directly; a fractional value in
`[0, 128)` passes `clampNoteNumber` but hits an undefined array slot and
throws, which the caller of `toPitch` maps to `none`. -/
def toPitch (q : ℚ) : Option (Fin 128) :=
  if h : 0 ≤ q.num ∧ q.num < 128 ∧ q.den = 1 then
    some ⟨q.num.toNat, by omega⟩
  else none

/-- The body of `applyHighlightEventInPlace` once the note number has
been clamped to an integer pitch `p`, acting on the cloned state. -/
def applyClamped (state : HighlightState) (ty : HighlightEventType)
    (sourceKey : Str) (p : Fin 128) (timeMs : ℚ) : HighlightState :=
  let activeKey := encodeKey sourceKey p
  let sourceCounts := state.sourcesByNote p
  match ty with
  | .on =>
    let currentCount := (jsGet state.countsByActiveKey activeKey).getD 0
    let sourceCount := (jsGet sourceCounts sourceKey).getD 0
    { countsByActiveKey := jsSet state.countsByActiveKey activeKey (currentCount + 1)
      sourcesByNote := fun i =>
        if i = p then jsSet sourceCounts sourceKey (sourceCount + 1)
        else state.sourcesByNote i
      totalsByNote := fun i =>
        if i = p then state.totalsByNote p + 1 else state.totalsByNote i
      lastNoteOnTimeMs := fun i =>
        if i = p then some timeMs else state.lastNoteOnTimeMs i
      lastNoteOffTimeMs := state.lastNoteOffTimeMs
      lastSourceKey := fun i =>
        if i = p then some sourceKey else state.lastSourceKey i
      lastPulseTimeMs := fun i =>
        if i = p then some timeMs else state.lastPulseTimeMs i }
  | .off =>
    let currentCount := (jsGet state.countsByActiveKey activeKey).getD 0
    let nextCount := max 0 (currentCount - 1)
    let sourceCount := (jsGet sourceCounts sourceKey).getD 0
    let nextSourceCount := max 0 (sourceCount - 1)
    let newTotal := max 0 (state.totalsByNote p - 1)
    { countsByActiveKey :=
        if nextCount = 0 then jsDelete state.countsByActiveKey activeKey
        else jsSet state.countsByActiveKey activeKey nextCount
      sourcesByNote := fun i =>
        if i = p then
          if nextSourceCount = 0 then jsDelete sourceCounts sourceKey
          else jsSet sourceCounts sourceKey nextSourceCount
        else state.sourcesByNote i
      totalsByNote := fun i =>
        if i = p then newTotal else state.totalsByNote i
      lastNoteOnTimeMs := state.lastNoteOnTimeMs
      lastNoteOffTimeMs := fun i =>
        if i = p then some timeMs else state.lastNoteOffTimeMs i
      lastSourceKey := fun i =>
        if i = p ∧ newTotal = 0 then none else state.lastSourceKey i
      lastPulseTimeMs := state.lastPulseTimeMs }

/-- `applyHighlightEventInPlace`: clamp the note number, return the state
untouched when the clamp yields `null`, apply the reference-count
transition otherwise.  `none` models the `TypeError` thrown when a
fractional in-range note number indexes the per-pitch arrays. -/
def applyHighlightEventInPlace (state : HighlightState) (event : HighlightEvent) :
    Option HighlightState :=
  match clampNoteNumber event.noteNumber with
  | none => some state
  | some q =>
    match toPitch q with
    | none => none
    | some p => some (applyClamped state event.type event.sourceKey p event.timeMs)

/-- `applyHighlightEvents`: clone the state and fold every event over it
(the empty-list early return coincides with the empty fold). -/
def applyHighlightEvents (state : HighlightState) (events : List HighlightEvent) :
    Option HighlightState :=
  events.foldlM applyHighlightEventInPlace state

/-- One iteration of the `clearHighlightsByPredicate` loop: parse the
stored key at its first colon, skip the entry when the source fails the
predicate or the note part is not a finite number, otherwise drop the
entry and decrement totals and the source breakdown by its count.
Keys whose parsed note is not a natural number below 128 cannot be
produced by `applyHighlightEvents` (the clamp and the array indexing
guarantee canonical keys), so the model skips them. -/
def clearEntry (pred : Str → Bool) (next : HighlightState) (entry : Str × ℤ) :
    HighlightState :=
  match splitFirstColon entry.1 with
  | none => next
  | some q =>
    if pred q.1 = false then next
    else
      match parseNat q.2 with
      | none => next
      | some m =>
        if h : m < 128 then
          let p : Fin 128 := ⟨m, h⟩
          let prevSourceCount := (jsGet (next.sourcesByNote p) q.1).getD 0
          let nextSourceCount := max 0 (prevSourceCount - entry.2)
          let newTotal := max 0 (next.totalsByNote p - entry.2)
          { countsByActiveKey := jsDelete next.countsByActiveKey entry.1
            totalsByNote := fun i =>
              if i = p then newTotal else next.totalsByNote i
            sourcesByNote := fun i =>
              if i = p then
                if nextSourceCount = 0 then jsDelete (next.sourcesByNote p) q.1
                else jsSet (next.sourcesByNote p) q.1 nextSourceCount
              else next.sourcesByNote i
            lastNoteOnTimeMs := next.lastNoteOnTimeMs
            lastNoteOffTimeMs := next.lastNoteOffTimeMs
            lastSourceKey := fun i =>
              if i = p ∧ newTotal = 0 then none else next.lastSourceKey i
            lastPulseTimeMs := next.lastPulseTimeMs }
        else next

/-- `clearHighlightsByPredicate`: iterate over the original entries,
clearing each matching one from the clone. -/
def clearHighlightsByPredicate (state : HighlightState) (pred : Str → Bool) :
    HighlightState :=
  if state.countsByActiveKey = [] then state
  else state.countsByActiveKey.foldl (clearEntry pred) state

/-- The reserved live-input source key. -/
def inputKey : Str := "input".data

/-- `clearHighlightsForSource`. -/
def clearHighlightsForSource (state : HighlightState) (sourceKey : Str) :
    HighlightState :=
  clearHighlightsByPredicate state (fun candidate => candidate = sourceKey)

/-- `clearHighlightsExceptInput`. -/
def clearHighlightsExceptInput (state : HighlightState) : HighlightState :=
  clearHighlightsByPredicate state (fun candidate => ¬(candidate = inputKey))

/-- `buildActiveNotesSet`: the set of active keys (a JS `Set` built from
the map's keys; as a list it is exactly the key list). -/
def buildActiveNotesSet (state : HighlightState) : List Str :=
  keysOf state.countsByActiveKey

/-! ### The highlight event queue flush (src/App.tsx, flushHighlightQueue) -/

/-- Rank used by the comparator's Off-before-On tie-break:
`a.type === 'off' ? -1 : 1` means Off sorts strictly before On. -/
def typeRank : HighlightEventType → Nat
  | .off => 0
  | .on => 1

/-- The numeric value the comparator's `a.noteNumber - b.noteNumber`
subtraction sees.  The scheduler and the live-input handler only enqueue
finite note numbers, for which this is the number itself; the non-finite
constructors are given an arbitrary fixed value to keep the comparator
total. -/
def noteQ : JSNum → ℚ
  | .num q => q
  | _ => 0

/-- `sourceKey.localeCompare`, modelled as code-point lexicographic
comparison of the character sequences (the source keys in play are
decimal track ids and `"input"`, for which the default locale agrees
with code-point order). -/
def lexLe : Str → Str → Bool
  | [], _ => true
  | _ :: _, [] => false
  | a :: as, b :: bs =>
    if a.toNat < b.toNat then true
    else if b.toNat < a.toNat then false
    else lexLe as bs

/-- The flush comparator as a boolean "sorts no later than" relation:
due time ascending, then Off before On, then note number ascending, then
source key lexicographic. -/
def eventLE (a b : HighlightEvent) : Bool :=
  if a.timeMs < b.timeMs then true
  else if b.timeMs < a.timeMs then false
  else if typeRank a.type < typeRank b.type then true
  else if typeRank b.type < typeRank a.type then false
  else if noteQ a.noteNumber < noteQ b.noteNumber then true
  else if noteQ b.noteNumber < noteQ a.noteNumber then false
  else lexLe a.sourceKey b.sourceKey

/-- `eventLE` as a relation, for use with `List.insertionSort`. -/
def eventRel : HighlightEvent → HighlightEvent → Prop :=
  fun a b => eventLE a b = true

instance : DecidableRel eventRel := fun a b => decEq (eventLE a b) true

/-- The due partition of the buffer: events with `timeMs ≤ nowMs`, in
buffer order. -/
def dueEvents (buffer : List HighlightEvent) (nowMs : ℚ) : List HighlightEvent :=
  buffer.filter (fun e => e.timeMs ≤ nowMs)

/-- The future partition of the buffer, which becomes the new buffer. -/
def futureEvents (buffer : List HighlightEvent) (nowMs : ℚ) : List HighlightEvent :=
  buffer.filter (fun e => ¬(e.timeMs ≤ nowMs))

/-- The due events in the order the flush applies them.  JavaScript's
`Array.prototype.sort` with the flush comparator produces a list sorted
by `eventLE`; insertion sort is a stable sort producing the same result
for this comparator. -/
def sortedDue (buffer : List HighlightEvent) (nowMs : ℚ) : List HighlightEvent :=
  List.insertionSort eventRel (dueEvents buffer nowMs)

/-- `flushHighlightQueue(nowMs)` acting on an explicit state and buffer:
early return on an empty buffer, partition into due and future, keep the
future events as the new buffer, and when anything is due apply the whole
sorted due list through `applyHighlightEvents` as one fold producing one
new state. -/
def flushHighlightQueue (state : HighlightState) (buffer : List HighlightEvent)
    (nowMs : ℚ) : Option HighlightState × List HighlightEvent :=
  if buffer = [] then (some state, buffer)
  else
    let due := dueEvents buffer nowMs
    if due = [] then (some state, futureEvents buffer nowMs)
    else (applyHighlightEvents state (List.insertionSort eventRel due),
          futureEvents buffer nowMs)

/-! ### The transport clock (src/App.tsx) -/

/-- The transport's mutable refs and state: `isPlaying`,
`startTimeRef` (the reference epoch in wall-clock ms), `pauseTimeRef`
(paused song time in seconds), the UI `currentTime`, and
`playbackRate`. -/
structure TransportState where
  isPlaying : Bool
  startTimeMs : ℚ
  pauseTimeSeconds : ℚ
  currentTime : ℚ
  playbackRate : ℚ

/-- The instantaneous song time: `((now - startTimeRef) / 1000) *
playbackRate` while playing (the formula used by `scheduleNotes` and the
animation loop), the stored paused time otherwise. -/
def songTimeNow (tr : TransportState) (now : ℚ) : ℚ :=
  if tr.isPlaying then (now - tr.startTimeMs) / 1000 * tr.playbackRate
  else tr.pauseTimeSeconds

/-- `handleRateChange(rate)`: when playing, recompute the epoch from the
current song time and the new rate; in all cases store the new rate.
The handler performs no validation of the rate. -/
def handleRateChange (tr : TransportState) (rate : ℚ) (now : ℚ) : TransportState :=
  if tr.isPlaying then
    let currentSongTime := (now - tr.startTimeMs) / 1000 * tr.playbackRate
    { tr with startTimeMs := now - currentSongTime * 1000 / rate,
              playbackRate := rate }
  else { tr with playbackRate := rate }

/-! ### The look-ahead scheduler (src/App.tsx, scheduleNotes) and seek -/

/-- A note of the Song Model. -/
structure Note where
  midi : JSNum
  time : ℚ
  duration : ℚ
  velocity : ℚ

/-- A track of the Song Model, with the two independent flags. -/
structure Track where
  id : ℤ
  channel : ℤ
  notes : List Note
  isHidden : Bool
  isMuted : Bool

/-- The parts of `MidiData` the transport consumes. -/
structure MidiData where
  tracks : List Track
  duration : ℚ

/-- `outputChannel: 'original' | number`. -/
inductive OutputChannel where
  | original
  | fixed (n : ℤ)

/-- The output settings the scheduler reads. -/
structure MidiOutputSettings where
  deviceId : Option Str
  outputChannel : OutputChannel
  latencyCompensation : ℚ

/-- A call into the external MIDI Output Sink. -/
inductive SinkCall where
  | noteOn (channel : ℤ) (midi : JSNum) (velocity : ℚ) (atMs : ℚ)
  | noteOff (channel : ℤ) (midi : JSNum) (atMs : ℚ)
deriving DecidableEq

/-- `String(track.id)`: the source key of a playback track. -/
def intRepr (i : ℤ) : Str := (toString i).data

/-- The channel argument of a sink call:
`outputChannel === 'original' ? track.channel + 1 : outputChannel`. -/
def channelFor (settings : MidiOutputSettings) (track : Track) : ℤ :=
  match settings.outputChannel with
  | .original => track.channel + 1
  | .fixed n => n

/-- The dispatch block of `scheduleNotes` for one note inside the
look-ahead window: the sink note-on/note-off pair (suppressed when the
track is muted or no device is selected) and the On/Off highlight event
pair pushed into the queue. -/
def dispatchNote (now songTime playbackRate : ℚ) (settings : MidiOutputSettings)
    (track : Track) (note : Note) : List HighlightEvent × List SinkCall :=
  let sourceKey := intRepr track.id
  let delayMs := max 0 ((note.time - songTime) * 1000 / playbackRate)
  let durationMs := note.duration * 1000 / playbackRate
  let onTimeMs := now + delayMs
  let offTimeMs := onTimeMs + durationMs
  let sinks :=
    if track.isMuted = false ∧ settings.deviceId.isSome then
      let timeUntilNote := (note.time - songTime) / playbackRate
      let absoluteScheduleTime := now + timeUntilNote * 1000 + settings.latencyCompensation
      let offTime := absoluteScheduleTime + note.duration / playbackRate * 1000
      [SinkCall.noteOn (channelFor settings track) note.midi note.velocity absoluteScheduleTime,
       SinkCall.noteOff (channelFor settings track) note.midi offTime]
    else []
  ([⟨.on, note.midi, sourceKey, onTimeMs⟩, ⟨.off, note.midi, sourceKey, offTimeMs⟩],
   sinks)

/-- The `while (nextIndex < track.notes.length)` loop of `scheduleNotes`,
acting on the note list from the cursor onward.  Returns how many notes
the cursor advanced over, the highlight events pushed, and the sink
calls made, in order. -/
def scheduleTrackLoop (songTime lookAheadTime now playbackRate : ℚ)
    (settings : MidiOutputSettings) (track : Track) :
    List Note → Nat × List HighlightEvent × List SinkCall
  | [] => (0, [], [])
  | note :: rest =>
    if lookAheadTime < note.time then (0, [], [])
    else if note.time + note.duration < songTime then
      let r := scheduleTrackLoop songTime lookAheadTime now playbackRate settings track rest
      (r.1 + 1, r.2.1, r.2.2)
    else
      let d :=
        if songTime - 1/10 ≤ note.time then
          dispatchNote now songTime playbackRate settings track note
        else ([], [])
      let r := scheduleTrackLoop songTime lookAheadTime now playbackRate settings track rest
      (r.1 + 1, d.1 ++ r.2.1, d.2 ++ r.2.2)

/-- One track's share of a scheduler tick: a hidden track is skipped
entirely (`if (track.isHidden) return`), otherwise the loop runs from
the track's cursor. -/
def scheduleTrackStep (songTime lookAheadTime now playbackRate : ℚ)
    (settings : MidiOutputSettings) (track : Track) (cursor : Nat) :
    Nat × List HighlightEvent × List SinkCall :=
  if track.isHidden then (cursor, [], [])
  else
    let r := scheduleTrackLoop songTime lookAheadTime now playbackRate settings track
      (track.notes.drop cursor)
    (cursor + r.1, r.2.1, r.2.2)

/-- `LOOKAHEAD` (ms). -/
def LOOKAHEAD : ℚ := 100

/-- A whole scheduler tick over all tracks: each track contributes its
new cursor, its queue pushes and its sink calls, in track order.
(`scheduleNotes` then flushes the queue with `flushHighlightQueue`,
modelled separately above.) -/
def scheduleNotesTick (songTime lookAheadTime now playbackRate : ℚ)
    (settings : MidiOutputSettings) (tracks : List Track) (cursors : List Nat) :
    List Nat × List HighlightEvent × List SinkCall :=
  let results := (tracks.zip cursors).map
    (fun tc => scheduleTrackStep songTime lookAheadTime now playbackRate settings tc.1 tc.2)
  (results.map (fun r => r.1),
   results.foldr (fun r acc => r.2.1 ++ acc) [],
   results.foldr (fun r acc => r.2.2 ++ acc) [])

/-- `resetPointers(time)`: for each track, the index of the first note
whose end time is at or after the target (`findIndex` returning `-1`
maps to the track length, as `List.findIdx` does). -/
def resetPointers (data : MidiData) (time : ℚ) : List Nat :=
  data.tracks.map (fun t => t.notes.findIdx (fun n => time ≤ n.time + n.duration))

/-- `handleSeek(time)`: pause if playing, store the target verbatim as
paused song time and UI time, clear the scheduled highlight queue
(`clearScheduledHighlights` empties the buffer), clear highlight state
except live input, reset the cursors, and if it was playing recompute
the epoch from the target and resume. -/
def handleSeek (data : MidiData) (tr : TransportState) (hl : HighlightState)
    (_queue : List HighlightEvent) (time now : ℚ) :
    TransportState × List Nat × HighlightState × List HighlightEvent :=
  let wasPlaying := tr.isPlaying
  ({ isPlaying := wasPlaying,
     startTimeMs := if wasPlaying then now - time * 1000 / tr.playbackRate else tr.startTimeMs,
     pauseTimeSeconds := time,
     currentTime := time,
     playbackRate := tr.playbackRate },
   resetPointers data time,
   clearHighlightsExceptInput hl,
   [])

/-- The rewind button's seek target: `Math.max(0, currentTime - 5)`
(src/components/PlaybackControls.tsx). -/
def rewindTarget (currentTime : ℚ) : ℚ := max 0 (currentTime - 5)

/-- The fast-forward button's seek target:
`Math.min(duration, currentTime + 5)`. -/
def forwardTarget (duration currentTime : ℚ) : ℚ := min duration (currentTime + 5)

/-! ### Derived vocabulary used to state the claims -/

/-- Sum of the values of the entries whose key satisfies `Q`. -/
def mapSumQ {α : Type} (Q : α → Bool) (m : List (α × ℤ)) : ℤ :=
  mapSum (m.filter (fun e => Q e.1))

/-- Whether a stored active key belongs to pitch `p`. -/
def keyHasPitch (p : Fin 128) (k : Str) : Bool :=
  decide ((decodeKey k).map Prod.snd = some p)

/-- The claim's "sum over keys `(s, p)` of `countsByActiveKey[(s,p)]`":
the total count stored under active keys belonging to pitch `p`. -/
def pitchKeySum (m : List (Str × ℤ)) (p : Fin 128) : ℤ :=
  mapSumQ (keyHasPitch p) m

/-- The operations of the highlight state interface, as used by the
conservation claim. -/
inductive HighlightOp where
  | events (es : List HighlightEvent)
  | clearForSource (s : Str)
  | clearExceptInput

/-- Run one highlight operation. -/
def runOp (st : HighlightState) : HighlightOp → Option HighlightState
  | .events es => applyHighlightEvents st es
  | .clearForSource s => some (clearHighlightsForSource st s)
  | .clearExceptInput => some (clearHighlightsExceptInput st)

/-- Run a sequence of highlight operations. -/
def runOps (st : HighlightState) (ops : List HighlightOp) : Option HighlightState :=
  ops.foldlM runOp st

/-- An Off event is "matched" when the active count of its
`(sourceKey, pitch)` key is at least one at the moment it applies.
(Events whose note number fails the clamp are skipped and are always
fine.) -/
def goodEvent (st : HighlightState) (e : HighlightEvent) : Bool :=
  match clampNoteNumber e.noteNumber with
  | none => true
  | some q =>
    match toPitch q with
    | none => true
    | some p =>
      match e.type with
      | .on => true
      | .off => 1 ≤ (jsGet st.countsByActiveKey (encodeKey e.sourceKey p)).getD 0

/-- Every event of the list is matched at the state it applies to. -/
def goodEvents (st : HighlightState) : List HighlightEvent → Bool
  | [] => true
  | e :: rest =>
    goodEvent st e &&
      (match applyHighlightEventInPlace st e with
       | some st' => goodEvents st' rest
       | none => true)

/-- One operation with only matched Off events. -/
def goodOp (st : HighlightState) : HighlightOp → Bool
  | .events es => goodEvents st es
  | _ => true

/-- A sequence of operations with only matched Off events. -/
def goodOps (st : HighlightState) : List HighlightOp → Bool
  | [] => true
  | op :: rest =>
    goodOp st op &&
      (match runOp st op with
       | some st' => goodOps st' rest
       | none => true)

/-- The conservation invariant carried through every operation of the
highlight state machine. -/
structure HSInv (st : HighlightState) : Prop where
  nodupKeys : (keysOf st.countsByActiveKey).Nodup
  nodupSrc : ∀ p, (keysOf (st.sourcesByNote p)).Nodup
  keyWF : ∀ e ∈ st.countsByActiveKey, ∃ s p, e.1 = encodeKey s p
  countPos : ∀ e ∈ st.countsByActiveKey, 0 < e.2
  srcPos : ∀ p, ∀ e ∈ st.sourcesByNote p, 0 < e.2
  link : ∀ p s, jsGet (st.sourcesByNote p) s = jsGet st.countsByActiveKey (encodeKey s p)
  totalsSrc : ∀ p, st.totalsByNote p = mapSum (st.sourcesByNote p)
  totalsKey : ∀ p, st.totalsByNote p = pitchKeySum st.countsByActiveKey p

/-- A note number rejected by the clamp: `NaN`, an infinity, or a finite
value outside `[0, 128)`. -/
def invalidNoteNumber (n : JSNum) : Prop :=
  n = .nan ∨ n = .posInf ∨ n = .negInf ∨ ∃ q, n = .num q ∧ (q < 0 ∨ 128 ≤ q)

/-- The Off-event algorithm of the specification, stated observationally
about the state produced by `applyClamped`. -/
def offSpec (state : HighlightState) (s : Str) (p : Fin 128) (t : ℚ) : Prop :=
  let st' := applyClamped state .off s p t
  let c := (jsGet state.countsByActiveKey (encodeKey s p)).getD 0
  let sc := (jsGet (state.sourcesByNote p) s).getD 0
  applyHighlightEventInPlace state ⟨.off, .num ((p.val : ℚ)), s, t⟩ = some st' ∧
  jsGet st'.countsByActiveKey (encodeKey s p) =
    (if max 0 (c - 1) = 0 then none else some (max 0 (c - 1))) ∧
  jsGet (st'.sourcesByNote p) s =
    (if max 0 (sc - 1) = 0 then none else some (max 0 (sc - 1))) ∧
  st'.totalsByNote p = max 0 (state.totalsByNote p - 1) ∧
  0 ≤ st'.totalsByNote p ∧
  st'.lastNoteOffTimeMs p = some t ∧
  st'.lastSourceKey p =
    (if max 0 (state.totalsByNote p - 1) = 0 then none else state.lastSourceKey p)

/-! ### Concrete instances used by counterexamples and witnesses -/

/-- A concrete On event with a finite note number. -/
def mkOn (s : Str) (q t : ℚ) : HighlightEvent := ⟨.on, .num q, s, t⟩

/-- A concrete Off event with a finite note number. -/
def mkOff (s : Str) (q t : ℚ) : HighlightEvent := ⟨.off, .num q, s, t⟩

/-- Two Ons for `(60, "0")` followed by one Off, from the fresh state. -/
def overlapState : HighlightState :=
  (applyHighlightEvents createHighlightState
    [mkOn "0".data 60 100, mkOn "0".data 60 140, mkOff "0".data 60 180]).getD
    createHighlightState

/-- An On for `(60, "a")` followed by an unmatched Off for `(60, "b")`:
the event list breaking the conservation claim. -/
def cexEvents : List HighlightEvent := [mkOn "a".data 60 1, mkOff "b".data 60 2]

/-- The state reached by `cexEvents` from the fresh state. -/
def cexState : HighlightState :=
  (runOps createHighlightState [.events cexEvents]).getD createHighlightState

/-- A state in which `(pitch 60, source "0")` has count 1. -/
def retriggerBase : HighlightState :=
  (applyHighlightEvents createHighlightState [mkOn "0".data 60 1]).getD
    createHighlightState

/-- A paused transport at rate 1. -/
def pausedTransport : TransportState := ⟨false, 0, 0, 0, 1⟩

/-- A playing transport at rate 1 with epoch 0. -/
def playingTransport : TransportState := ⟨true, 0, 0, 0, 1⟩

/-- A song model with no tracks and duration 10 seconds. -/
def smallSong : MidiData := ⟨[], 10⟩

/-- A matched operation sequence used as the conservation witness. -/
def goodRunOps : List HighlightOp :=
  [.events [mkOn "0".data 60 1, mkOn inputKey 72 2, mkOff "0".data 60 3],
   .clearExceptInput]

/-- The state reached by `goodRunOps` from the fresh state. -/
def goodRunState : HighlightState :=
  (runOps createHighlightState goodRunOps).getD createHighlightState

/-- A state with live-input and playback activations, used as the seek
frame witness. -/
def seekWitnessState : HighlightState :=
  (applyHighlightEvents createHighlightState
    [mkOn "0".data 60 1, mkOn inputKey 60 2, mkOn inputKey 64 3]).getD
    createHighlightState

/-! ## Ordering lemmas for the flush comparator -/

theorem ltStep_cases {α : Type} [LinearOrder α] {x y : α} {p : Bool}
    (h : (if x < y then true else if y < x then false else p) = true) :
    x < y ∨ (x = y ∧ p = true) := by
  by_cases h1 : x < y
  · exact Or.inl h1
  · by_cases h2 : y < x
    · rw [if_neg h1, if_pos h2] at h
      exact absurd h (by simp)
    · rw [if_neg h1, if_neg h2] at h
      exact Or.inr ⟨le_antisymm (not_lt.mp h2) (not_lt.mp h1), h⟩

theorem ltStep_lt {α : Type} [LinearOrder α] {x y : α} (p : Bool) (h : x < y) :
    (if x < y then true else if y < x then false else p) = true := by
  rw [if_pos h]

theorem ltStep_eq {α : Type} [LinearOrder α] {x y : α} {p : Bool} (h : x = y)
    (hp : p = true) :
    (if x < y then true else if y < x then false else p) = true := by
  subst h
  rw [if_neg (lt_irrefl x), if_neg (lt_irrefl x)]
  exact hp

theorem ltStep_total {α : Type} [LinearOrder α] {x y : α} {p q : Bool}
    (hpq : p = true ∨ q = true) :
    (if x < y then true else if y < x then false else p) = true ∨
    (if y < x then true else if x < y then false else q) = true := by
  rcases lt_trichotomy x y with h | h | h
  · exact Or.inl (ltStep_lt _ h)
  · rcases hpq with hp | hq
    · exact Or.inl (ltStep_eq h hp)
    · exact Or.inr (ltStep_eq h.symm hq)
  · exact Or.inr (ltStep_lt _ h)

theorem ltStep_trans {α : Type} [LinearOrder α] {x y z : α} {p q r : Bool}
    (hpqr : p = true → q = true → r = true)
    (h1 : (if x < y then true else if y < x then false else p) = true)
    (h2 : (if y < z then true else if z < y then false else q) = true) :
    (if x < z then true else if z < x then false else r) = true := by
  rcases ltStep_cases h1 with hx | ⟨hx, hp⟩
  · rcases ltStep_cases h2 with hy | ⟨hy, _⟩
    · exact ltStep_lt _ (lt_trans hx hy)
    · exact ltStep_lt _ (hy ▸ hx)
  · rcases ltStep_cases h2 with hy | ⟨hy, hq⟩
    · exact ltStep_lt _ (hx ▸ hy)
    · exact ltStep_eq (hx.trans hy) (hpqr hp hq)

theorem lexLe_total : ∀ a b : Str, lexLe a b = true ∨ lexLe b a = true
  | [], _ => Or.inl rfl
  | _ :: _, [] => Or.inr rfl
  | a :: as, b :: bs => by
    have ih := lexLe_total as bs
    unfold lexLe
    exact ltStep_total ih

theorem lexLe_trans : ∀ a b c : Str,
    lexLe a b = true → lexLe b c = true → lexLe a c = true
  | [], _, _, _, _ => rfl
  | _ :: _, [], _, h1, _ => by simp [lexLe] at h1
  | _ :: _, _ :: _, [], _, h2 => by simp [lexLe] at h2
  | a :: as, b :: bs, c :: cs, h1, h2 => by
    have ih := fun x y => lexLe_trans as bs cs x y
    unfold lexLe at h1 h2 ⊢
    exact ltStep_trans ih h1 h2

theorem eventLE_total (a b : HighlightEvent) : eventLE a b = true ∨ eventLE b a = true := by
  unfold eventLE
  exact ltStep_total (ltStep_total (ltStep_total (lexLe_total _ _)))

theorem eventLE_trans (a b c : HighlightEvent) (h1 : eventLE a b = true)
    (h2 : eventLE b c = true) : eventLE a c = true := by
  unfold eventLE at h1 h2 ⊢
  exact ltStep_trans
    (fun x1 x2 => ltStep_trans
      (fun y1 y2 => ltStep_trans (fun z1 z2 => lexLe_trans _ _ _ z1 z2) y1 y2) x1 x2) h1 h2

instance : IsTotal HighlightEvent eventRel := ⟨eventLE_total⟩

instance : IsTrans HighlightEvent eventRel := ⟨eventLE_trans⟩

/-! ## C2: deterministic flush ordering and atomic application -/

/-- C2: flushing the queue at `nowMs` partitions the buffer into due and
future events, keeps the future events as the new buffer, sorts the due
set by due time ascending then Off before On then pitch then source key,
and applies the whole sorted list through one `applyHighlightEvents`
fold producing a single new state; in particular, flushing a coincident
Off/On retrigger pair for `(60, "0")` over a state where that key has
count 1 yields `totalsByNote[60] = 1` with no other state ever exposed. -/
theorem flush_deterministic_order_atomic :
    (∀ (state : HighlightState) (buffer : List HighlightEvent) (nowMs : ℚ),
      flushHighlightQueue state buffer nowMs =
        (applyHighlightEvents state (sortedDue buffer nowMs), futureEvents buffer nowMs)) ∧
    (∀ (buffer : List HighlightEvent) (nowMs : ℚ),
      List.Sorted eventRel (sortedDue buffer nowMs)) ∧
    (∀ (buffer : List HighlightEvent) (nowMs : ℚ),
      (sortedDue buffer nowMs).Perm (dueEvents buffer nowMs)) ∧
    (∀ (t : ℚ) (na nb : JSNum) (sa sb : Str),
      eventLE ⟨.off, na, sa, t⟩ ⟨.on, nb, sb, t⟩ = true ∧
      eventLE ⟨.on, na, sa, t⟩ ⟨.off, nb, sb, t⟩ = false) ∧
    ((flushHighlightQueue retriggerBase
        [mkOn "0".data 60 5, mkOff "0".data 60 5] 5).1.getD
        createHighlightState).totalsByNote 60 = 1 ∧
    (flushHighlightQueue retriggerBase [mkOn "0".data 60 5, mkOff "0".data 60 5] 5).2 = [] := by
  refine ⟨?_, ?_, ?_, ?_, by decide, by decide⟩
  · intro state buffer nowMs
    unfold flushHighlightQueue
    by_cases h1 : buffer = []
    · subst h1
      rw [if_pos rfl]
      rfl
    · rw [if_neg h1]
      show (if dueEvents buffer nowMs = [] then (some state, futureEvents buffer nowMs)
          else (applyHighlightEvents state (List.insertionSort eventRel (dueEvents buffer nowMs)),
            futureEvents buffer nowMs)) =
        (applyHighlightEvents state (sortedDue buffer nowMs), futureEvents buffer nowMs)
      by_cases h2 : dueEvents buffer nowMs = []
      · rw [if_pos h2, sortedDue, h2]
        rfl
      · rw [if_neg h2, sortedDue]
  · intro buffer nowMs
    exact List.sorted_insertionSort eventRel _
  · intro buffer nowMs
    exact List.perm_insertionSort eventRel _
  · intro t na nb sa sb
    constructor
    · simp [eventLE, typeRank]
    · simp [eventLE, typeRank]

/-! ## C3: overlap independence -/

/-- C3: from the empty highlight state, two On events for `(60, "0")`
followed by one Off leave `totalsByNote[60] = 1` (not 0), and the key
`"0:60"` is still in the active-notes set. -/
theorem overlap_independence :
    applyHighlightEvents createHighlightState
      [mkOn "0".data 60 100, mkOn "0".data 60 140, mkOff "0".data 60 180] =
        some overlapState ∧
    overlapState.totalsByNote 60 = 1 ∧
    ¬(overlapState.totalsByNote 60 = 0) ∧
    encodeKey "0".data 60 ∈ buildActiveNotesSet overlapState :=
  ⟨rfl, by decide, by decide, by decide⟩

/-! ## C5: continuity under rate change -/

/-- C5: for any transport state (playing or paused) and any positive
rates, `handleRateChange` leaves the instantaneous song time unchanged:
the song time evaluated at the same wall-clock instant is equal before
and after the call (exactly, in rational arithmetic). -/
theorem rate_change_continuity (tr : TransportState) (rate2 now : ℚ)
    (h1 : 0 < tr.playbackRate) (h2 : 0 < rate2) :
    songTimeNow (handleRateChange tr rate2 now) now = songTimeNow tr now := by
  have hr2 : rate2 ≠ 0 := ne_of_gt h2
  unfold handleRateChange songTimeNow
  by_cases hp : tr.isPlaying = true
  · simp only [hp, if_true]
    field_simp
    ring
  · simp [hp]

/-- Witness: continuity of a concrete rate change from 1 to 2 on a
playing transport. -/
theorem rate_change_continuity_witness :
    0 < playingTransport.playbackRate ∧ 0 < (2 : ℚ) ∧
    songTimeNow (handleRateChange playingTransport 2 500) 500 =
      songTimeNow playingTransport 500 :=
  ⟨by decide, by decide,
   rate_change_continuity playingTransport 2 500 (by decide) (by decide)⟩

/-! ## C6: invalid rates are not rejected -/

/-- C6 counterexample: `handleRateChange` applied to a paused transport
with rate 1 and the invalid rate `-1` stores `-1` as the playback rate,
so the request is not ignored and the prior rate is not retained. -/
theorem invalid_rate_counterexample :
    pausedTransport.playbackRate = 1 ∧
    (handleRateChange pausedTransport (-1) 100).playbackRate = -1 ∧
    ¬((-1 : ℚ) = 1) := by decide

/-- C6 amended: the rate-change operation performs no validation — for
every rate, including rates `≤ 0`, it stores the requested rate (leaving
the playing flag alone, and when paused leaving the epoch and paused
time alone); only the UI's rate selector restricts rates to positive
values. -/
theorem rate_change_unvalidated :
    (∀ (tr : TransportState) (rate now : ℚ),
      (handleRateChange tr rate now).playbackRate = rate) ∧
    (∀ (tr : TransportState) (rate now : ℚ),
      (handleRateChange tr rate now).isPlaying = tr.isPlaying) ∧
    (∀ (tr : TransportState) (rate now : ℚ),
      handleRateChange { tr with isPlaying := false } rate now =
        { tr with isPlaying := false, playbackRate := rate }) := by
  refine ⟨?_, ?_, ?_⟩ <;>
    · intro tr rate now
      unfold handleRateChange
      by_cases hp : tr.isPlaying = true <;> simp [hp]

/-! ## C7: seek targets are not clamped by the seek operation -/

/-- C7 counterexample: seeking to `-5` in a 10-second song stores `-5`
verbatim as the paused song time and UI time; the result is not the
claimed clamped value `0`. -/
theorem seek_clamp_counterexample :
    smallSong.duration = 10 ∧
    (handleSeek smallSong pausedTransport createHighlightState [] (-5) 100).1.pauseTimeSeconds = -5 ∧
    (handleSeek smallSong pausedTransport createHighlightState [] (-5) 100).1.currentTime = -5 ∧
    ¬((-5 : ℚ) = 0) := by decide

/-- C7 amended: `handleSeek` applies its target verbatim, with no
clamping to `[0, duration]`; the clamping the spec describes lives at
the UI call sites (the rewind button clamps below by 0, the forward
button clamps above by the duration, and the scrubber is bounded). -/
theorem seek_applies_target_verbatim :
    (∀ (data : MidiData) (tr : TransportState) (hl : HighlightState)
        (queue : List HighlightEvent) (time now : ℚ),
      (handleSeek data tr hl queue time now).1.pauseTimeSeconds = time ∧
      (handleSeek data tr hl queue time now).1.currentTime = time) ∧
    (∀ currentTime : ℚ, 0 ≤ rewindTarget currentTime) ∧
    (∀ duration currentTime : ℚ, forwardTarget duration currentTime ≤ duration) :=
  ⟨fun _ _ _ _ _ _ => ⟨rfl, rfl⟩,
   fun _ => le_max_left _ _,
   fun _ _ => min_le_left _ _⟩

/-! ## C9: hidden versus muted tracks in the scheduler tick -/

theorem dispatchNote_muted (now songTime playbackRate : ℚ)
    (settings : MidiOutputSettings) (track : Track) (note : Note) :
    (dispatchNote now songTime playbackRate settings { track with isMuted := true } note).1 =
      (dispatchNote now songTime playbackRate settings { track with isMuted := false } note).1 ∧
    (dispatchNote now songTime playbackRate settings { track with isMuted := true } note).2 = [] := by
  constructor <;> simp [dispatchNote]

theorem scheduleTrackLoop_muted (songTime lookAheadTime now playbackRate : ℚ)
    (settings : MidiOutputSettings) (track : Track) :
    ∀ notes : List Note,
      (scheduleTrackLoop songTime lookAheadTime now playbackRate settings
          { track with isMuted := true } notes).1 =
        (scheduleTrackLoop songTime lookAheadTime now playbackRate settings
          { track with isMuted := false } notes).1 ∧
      (scheduleTrackLoop songTime lookAheadTime now playbackRate settings
          { track with isMuted := true } notes).2.1 =
        (scheduleTrackLoop songTime lookAheadTime now playbackRate settings
          { track with isMuted := false } notes).2.1 ∧
      (scheduleTrackLoop songTime lookAheadTime now playbackRate settings
          { track with isMuted := true } notes).2.2 = []
  | [] => ⟨rfl, rfl, rfl⟩
  | note :: rest => by
    obtain ⟨ih1, ih2, ih3⟩ :=
      scheduleTrackLoop_muted songTime lookAheadTime now playbackRate settings track rest
    obtain ⟨hd1, hd2⟩ := dispatchNote_muted now songTime playbackRate settings track note
    unfold scheduleTrackLoop
    split_ifs with h1 h2 h3
    · exact ⟨rfl, rfl, rfl⟩
    · exact ⟨by simp [ih1], by simp [ih2], by simp [ih3]⟩
    · exact ⟨by simp [ih1], by simp [hd1, ih2], by simp [hd2, ih3]⟩
    · exact ⟨by simp [ih1], by simp [ih2], by simp [ih3]⟩

/-- C9: in a scheduler tick, a hidden track is skipped entirely — its
cursor does not advance, it enqueues no highlight events and makes no
Output Sink calls — while a muted (non-hidden) track advances its cursor
and enqueues exactly the highlight events of the unmuted track but makes
no Output Sink calls; the two flags act independently. -/
theorem hidden_muted_track_semantics :
    (∀ (songTime lookAheadTime now playbackRate : ℚ) (settings : MidiOutputSettings)
        (track : Track) (cursor : Nat),
      scheduleTrackStep songTime lookAheadTime now playbackRate settings
        { track with isHidden := true } cursor = (cursor, [], [])) ∧
    (∀ (songTime lookAheadTime now playbackRate : ℚ) (settings : MidiOutputSettings)
        (track : Track) (cursor : Nat),
      (scheduleTrackStep songTime lookAheadTime now playbackRate settings
          { track with isHidden := false, isMuted := true } cursor).2.2 = [] ∧
      (scheduleTrackStep songTime lookAheadTime now playbackRate settings
          { track with isHidden := false, isMuted := true } cursor).1 =
        (scheduleTrackStep songTime lookAheadTime now playbackRate settings
          { track with isHidden := false, isMuted := false } cursor).1 ∧
      (scheduleTrackStep songTime lookAheadTime now playbackRate settings
          { track with isHidden := false, isMuted := true } cursor).2.1 =
        (scheduleTrackStep songTime lookAheadTime now playbackRate settings
          { track with isHidden := false, isMuted := false } cursor).2.1) := by
  constructor
  · intro songTime lookAheadTime now playbackRate settings track cursor
    simp [scheduleTrackStep]
  · intro songTime lookAheadTime now playbackRate settings track cursor
    obtain ⟨h1, h2, h3⟩ :=
      scheduleTrackLoop_muted songTime lookAheadTime now playbackRate settings
        { track with isHidden := false } (track.notes.drop cursor)
    have estep : ∀ b : Bool,
        scheduleTrackStep songTime lookAheadTime now playbackRate settings
          { track with isHidden := false, isMuted := b } cursor =
        (cursor + (scheduleTrackLoop songTime lookAheadTime now playbackRate settings
            { track with isHidden := false, isMuted := b } (track.notes.drop cursor)).1,
         (scheduleTrackLoop songTime lookAheadTime now playbackRate settings
            { track with isHidden := false, isMuted := b } (track.notes.drop cursor)).2.1,
         (scheduleTrackLoop songTime lookAheadTime now playbackRate settings
            { track with isHidden := false, isMuted := b } (track.notes.drop cursor)).2.2) :=
      fun _ => rfl
    refine ⟨?_, ?_, ?_⟩
    · rw [estep true]
      exact h3
    · rw [estep true, estep false]
      exact congrArg (fun n => cursor + n) h1
    · rw [estep true, estep false]
      exact h2

/-! ## C10: the total guard on the apply interface -/

theorem clampNoteNumber_invalid {n : JSNum} (h : invalidNoteNumber n) :
    clampNoteNumber n = none := by
  rcases h with h | h | h | ⟨q, hq, hr⟩
  · subst h; rfl
  · subst h; rfl
  · subst h; rfl
  · subst hq
    simp [clampNoteNumber, hr]

/-- C10: applying any event whose note number is not a finite number in
`[0, 128)` (negative, 128 or above, `NaN`, or infinite) through
`applyHighlightEvents` returns the state unchanged — the event is
silently ignored, and no per-pitch array slot is ever touched (the model
indexes those arrays by `Fin 128`, so the guard is what keeps every
access in bounds). -/
theorem invalid_note_guard (state : HighlightState) (event : HighlightEvent)
    (h : invalidNoteNumber event.noteNumber) :
    applyHighlightEvents state [event] = some state ∧
    applyHighlightEventInPlace state event = some state := by
  have hc := clampNoteNumber_invalid h
  have h2 : applyHighlightEventInPlace state event = some state := by
    simp [applyHighlightEventInPlace, hc]
  exact ⟨by simp [applyHighlightEvents, h2], h2⟩

/-- Witness: a `NaN` note number leaves a concrete nonempty state
unchanged. -/
theorem invalid_note_guard_witness :
    invalidNoteNumber (JSNum.nan) ∧
    applyHighlightEvents retriggerBase [⟨.off, .nan, "0".data, 9⟩] = some retriggerBase :=
  ⟨Or.inl rfl, (invalid_note_guard retriggerBase ⟨.off, .nan, "0".data, 9⟩ (Or.inl rfl)).1⟩

/-! ## Lemmas about the `Map` model -/

section MapLemmas

variable {α β : Type} [DecidableEq α]

theorem jsGet_jsSet_self (m : List (α × β)) (k : α) (v : β) :
    jsGet (jsSet m k v) k = some v := by
  induction m with
  | nil => simp [jsSet, jsGet]
  | cons e rest ih =>
    by_cases h : e.1 = k
    · simp [jsSet, h, jsGet]
    · simp [jsSet, h, jsGet, ih]

theorem jsGet_jsSet_ne (m : List (α × β)) (k : α) (v : β) {a : α} (h : ¬(a = k)) :
    jsGet (jsSet m k v) a = jsGet m a := by
  have h' : ¬(k = a) := fun hh => h hh.symm
  induction m with
  | nil => simp [jsSet, jsGet, h']
  | cons e rest ih =>
    by_cases he : e.1 = k
    · subst he
      simp [jsSet, jsGet, h']
    · simp only [jsSet, if_neg he]
      by_cases ha : e.1 = a <;> simp [jsGet, ha, ih]

theorem jsGet_jsDelete_ne (m : List (α × β)) (k : α) {a : α} (h : ¬(a = k)) :
    jsGet (jsDelete m k) a = jsGet m a := by
  have h' : ¬(k = a) := fun hh => h hh.symm
  induction m with
  | nil => simp [jsDelete]
  | cons e rest ih =>
    by_cases he : e.1 = k
    · subst he
      simp [jsDelete, jsGet, h']
    · simp only [jsDelete, if_neg he]
      by_cases ha : e.1 = a <;> simp [jsGet, ha, ih]

theorem jsDelete_sublist (m : List (α × β)) (k : α) :
    List.Sublist (jsDelete m k) m := by
  induction m with
  | nil => simp [jsDelete]
  | cons e rest ih =>
    by_cases he : e.1 = k
    · simpa [jsDelete, he] using List.sublist_cons_self e rest
    · simpa [jsDelete, he] using List.Sublist.cons₂ e ih

theorem jsGet_eq_none_of_not_mem (m : List (α × β)) (k : α) (h : k ∉ keysOf m) :
    jsGet m k = none := by
  induction m with
  | nil => rfl
  | cons e rest ih =>
    simp only [keysOf, List.map_cons, List.mem_cons, not_or] at h
    have h1 : ¬(e.1 = k) := fun hh => h.1 hh.symm
    simp [jsGet, h1, ih (by simpa [keysOf] using h.2)]

theorem not_mem_keys_of_jsGet_none (m : List (α × β)) (k : α) (h : jsGet m k = none) :
    k ∉ keysOf m := by
  induction m with
  | nil => simp [keysOf]
  | cons e rest ih =>
    by_cases he : e.1 = k
    · simp [jsGet, he] at h
    · simp only [jsGet, if_neg he] at h
      have h1 : ¬(k = e.1) := fun hh => he hh.symm
      simp only [keysOf, List.map_cons, List.mem_cons, not_or]
      exact ⟨h1, by simpa [keysOf] using ih h⟩

theorem jsGet_mem (m : List (α × β)) (k : α) (v : β) (h : jsGet m k = some v) :
    (k, v) ∈ m := by
  induction m with
  | nil => simp [jsGet] at h
  | cons e rest ih =>
    by_cases he : e.1 = k
    · simp only [jsGet, if_pos he] at h
      obtain rfl := Option.some_inj.mp h
      exact List.mem_cons.mpr (Or.inl (by rw [← he]))
    · simp only [jsGet, if_neg he] at h
      exact List.mem_cons.mpr (Or.inr (ih h))

theorem jsGet_of_mem_nodup (m : List (α × β)) (k : α) (v : β)
    (hnd : (keysOf m).Nodup) (h : (k, v) ∈ m) : jsGet m k = some v := by
  induction m with
  | nil => simp at h
  | cons e rest ih =>
    simp only [keysOf, List.map_cons, List.nodup_cons] at hnd
    rcases List.mem_cons.mp h with h | h
    · subst h
      simp [jsGet]
    · have hne : ¬(e.1 = k) := by
        intro he
        exact hnd.1 (he ▸ List.mem_map.mpr ⟨(k, v), h, rfl⟩)
      simp only [jsGet, if_neg hne]
      exact ih (by simpa [keysOf] using hnd.2) h

theorem jsGet_jsDelete_self (m : List (α × β)) (k : α)
    (hnd : (keysOf m).Nodup) : jsGet (jsDelete m k) k = none := by
  induction m with
  | nil => rfl
  | cons e rest ih =>
    simp only [keysOf, List.map_cons, List.nodup_cons] at hnd
    by_cases he : e.1 = k
    · rw [jsDelete, if_pos he]
      exact jsGet_eq_none_of_not_mem rest k (he ▸ hnd.1)
    · rw [jsDelete, if_neg he, jsGet, if_neg he]
      exact ih (by simpa [keysOf] using hnd.2)

theorem mem_keys_jsSet (m : List (α × β)) (k : α) (v : β) (a : α) :
    a ∈ keysOf (jsSet m k v) ↔ a ∈ keysOf m ∨ a = k := by
  induction m with
  | nil => simp [jsSet, keysOf]
  | cons e rest ih =>
    by_cases he : e.1 = k
    · subst he
      simp [jsSet, keysOf]
      tauto
    · simp only [jsSet, if_neg he, keysOf, List.map_cons, List.mem_cons] at ih ⊢
      rw [ih]
      tauto

theorem nodup_keys_jsSet (m : List (α × β)) (k : α) (v : β)
    (hnd : (keysOf m).Nodup) : (keysOf (jsSet m k v)).Nodup := by
  induction m with
  | nil => simp [jsSet, keysOf]
  | cons e rest ih =>
    simp only [keysOf, List.map_cons, List.nodup_cons] at hnd
    by_cases he : e.1 = k
    · subst he
      have hset : jsSet (e :: rest) e.1 v = (e.1, v) :: rest := by simp [jsSet]
      rw [hset]
      simpa [keysOf, List.nodup_cons] using hnd
    · simp only [jsSet, if_neg he, keysOf, List.map_cons, List.nodup_cons]
      refine ⟨fun hmem => ?_, ih (by simpa [keysOf] using hnd.2)⟩
      rcases (mem_keys_jsSet rest k v e.1).mp (by simpa [keysOf] using hmem) with h | h
      · exact hnd.1 (by simpa [keysOf] using h)
      · exact he h

theorem nodup_keys_jsDelete (m : List (α × β)) (k : α)
    (hnd : (keysOf m).Nodup) : (keysOf (jsDelete m k)).Nodup :=
  ((jsDelete_sublist m k).map Prod.fst).nodup hnd

theorem mem_jsSet (m : List (α × β)) (k : α) (v : β) (e : α × β)
    (h : e ∈ jsSet m k v) : e ∈ m ∨ e = (k, v) := by
  induction m with
  | nil => simpa [jsSet] using h
  | cons e' rest ih =>
    by_cases he : e'.1 = k
    · rw [jsSet, if_pos he] at h
      rcases List.mem_cons.mp h with h | h
      · exact Or.inr h
      · exact Or.inl (List.mem_cons.mpr (Or.inr h))
    · rw [jsSet, if_neg he] at h
      rcases List.mem_cons.mp h with h | h
      · exact Or.inl (List.mem_cons.mpr (Or.inl h))
      · rcases ih h with h | h
        · exact Or.inl (List.mem_cons.mpr (Or.inr h))
        · exact Or.inr h

theorem mem_jsDelete (m : List (α × β)) (k : α) (e : α × β)
    (h : e ∈ jsDelete m k) : e ∈ m :=
  (jsDelete_sublist m k).subset h

end MapLemmas

/-! ## Sum lemmas -/

section SumLemmas

variable {α : Type} [DecidableEq α]

theorem mapSum_cons (e : α × ℤ) (m : List (α × ℤ)) :
    mapSum (e :: m) = e.2 + mapSum m := by
  simp [mapSum]

theorem mapSum_jsSet (m : List (α × ℤ)) (k : α) (v : ℤ) :
    mapSum (jsSet m k v) = mapSum m + v - (jsGet m k).getD 0 := by
  induction m with
  | nil => simp [jsSet, jsGet, mapSum]
  | cons e rest ih =>
    by_cases he : e.1 = k
    · rw [jsSet, if_pos he, mapSum_cons, mapSum_cons, jsGet, if_pos he]
      simp only [Option.getD_some]
      ring
    · rw [jsSet, if_neg he, mapSum_cons, mapSum_cons, jsGet, if_neg he, ih]
      ring

theorem mapSum_jsDelete (m : List (α × ℤ)) (k : α) :
    mapSum (jsDelete m k) = mapSum m - (jsGet m k).getD 0 := by
  induction m with
  | nil => simp [jsDelete, jsGet, mapSum]
  | cons e rest ih =>
    by_cases he : e.1 = k
    · rw [jsDelete, if_pos he, mapSum_cons, jsGet, if_pos he]
      simp
    · rw [jsDelete, if_neg he, mapSum_cons, mapSum_cons, jsGet, if_neg he, ih]
      ring

theorem mapSumQ_cons (Q : α → Bool) (e : α × ℤ) (m : List (α × ℤ)) :
    mapSumQ Q (e :: m) = (if Q e.1 then e.2 else 0) + mapSumQ Q m := by
  by_cases hq : Q e.1 <;> simp [mapSumQ, List.filter_cons, hq, mapSum_cons]

theorem mapSumQ_jsSet_pos (Q : α → Bool) (m : List (α × ℤ)) (k : α) (v : ℤ)
    (hQ : Q k = true) :
    mapSumQ Q (jsSet m k v) = mapSumQ Q m + v - (jsGet m k).getD 0 := by
  induction m with
  | nil => simp [jsSet, jsGet, mapSumQ, List.filter_cons, hQ, mapSum]
  | cons e rest ih =>
    by_cases he : e.1 = k
    · rw [jsSet, if_pos he, mapSumQ_cons, mapSumQ_cons, jsGet, if_pos he]
      rw [he, hQ]
      simp
      ring
    · rw [jsSet, if_neg he, mapSumQ_cons, mapSumQ_cons, jsGet, if_neg he, ih]
      ring

theorem mapSumQ_jsSet_neg (Q : α → Bool) (m : List (α × ℤ)) (k : α) (v : ℤ)
    (hQ : Q k = false) :
    mapSumQ Q (jsSet m k v) = mapSumQ Q m := by
  induction m with
  | nil => simp [jsSet, mapSumQ, List.filter_cons, hQ, mapSum]
  | cons e rest ih =>
    by_cases he : e.1 = k
    · rw [jsSet, if_pos he, mapSumQ_cons, mapSumQ_cons, he, hQ]
      simp
    · rw [jsSet, if_neg he, mapSumQ_cons, mapSumQ_cons, ih]

theorem mapSumQ_jsDelete_pos (Q : α → Bool) (m : List (α × ℤ)) (k : α)
    (hQ : Q k = true) :
    mapSumQ Q (jsDelete m k) = mapSumQ Q m - (jsGet m k).getD 0 := by
  induction m with
  | nil => simp [jsDelete, jsGet, mapSumQ, mapSum]
  | cons e rest ih =>
    by_cases he : e.1 = k
    · rw [jsDelete, if_pos he, mapSumQ_cons, jsGet, if_pos he, he, hQ]
      simp
    · rw [jsDelete, if_neg he, mapSumQ_cons, mapSumQ_cons, jsGet, if_neg he, ih]
      ring

theorem mapSumQ_jsDelete_neg (Q : α → Bool) (m : List (α × ℤ)) (k : α)
    (hQ : Q k = false) :
    mapSumQ Q (jsDelete m k) = mapSumQ Q m := by
  induction m with
  | nil => rfl
  | cons e rest ih =>
    by_cases he : e.1 = k
    · rw [jsDelete, if_pos he, mapSumQ_cons, he, hQ]
      simp
    · rw [jsDelete, if_neg he, mapSumQ_cons, mapSumQ_cons, ih]

theorem getD_jsGet_nonneg (m : List (α × ℤ)) (k : α)
    (hpos : ∀ e ∈ m, 0 < e.2) : 0 ≤ (jsGet m k).getD 0 := by
  cases hj : jsGet m k with
  | none => simp
  | some v => simpa using (hpos _ (jsGet_mem m k v hj)).le

theorem mapSum_nonneg (m : List (α × ℤ)) (hpos : ∀ e ∈ m, 0 < e.2) :
    0 ≤ mapSum m := by
  induction m with
  | nil => simp [mapSum]
  | cons e rest ih =>
    rw [mapSum_cons]
    have h1 := hpos e (List.mem_cons_self e rest)
    have h2 := ih (fun e' he' => hpos e' (List.mem_cons.mpr (Or.inr he')))
    omega

theorem mapSumQ_nonneg (Q : α → Bool) (m : List (α × ℤ))
    (hpos : ∀ e ∈ m, 0 < e.2) : 0 ≤ mapSumQ Q m := by
  refine mapSum_nonneg _ (fun e he => hpos e ?_)
  exact List.mem_of_mem_filter he

theorem le_mapSum_of_jsGet (m : List (α × ℤ)) (k : α) (c : ℤ)
    (hpos : ∀ e ∈ m, 0 < e.2) (hg : jsGet m k = some c) : c ≤ mapSum m := by
  induction m with
  | nil => simp [jsGet] at hg
  | cons e rest ih =>
    have hrest : ∀ e' ∈ rest, 0 < e'.2 :=
      fun e' he' => hpos e' (List.mem_cons.mpr (Or.inr he'))
    rw [mapSum_cons]
    by_cases he : e.1 = k
    · rw [jsGet, if_pos he] at hg
      obtain rfl := Option.some_inj.mp hg
      have := mapSum_nonneg rest hrest
      omega
    · rw [jsGet, if_neg he] at hg
      have h1 := ih hrest hg
      have h2 := hpos e (List.mem_cons_self e rest)
      omega

theorem le_mapSumQ_of_jsGet (Q : α → Bool) (m : List (α × ℤ)) (k : α) (c : ℤ)
    (hpos : ∀ e ∈ m, 0 < e.2) (hQ : Q k = true) (hg : jsGet m k = some c) :
    c ≤ mapSumQ Q m := by
  induction m with
  | nil => simp [jsGet] at hg
  | cons e rest ih =>
    have hrest : ∀ e' ∈ rest, 0 < e'.2 :=
      fun e' he' => hpos e' (List.mem_cons.mpr (Or.inr he'))
    rw [mapSumQ_cons]
    by_cases he : e.1 = k
    · rw [jsGet, if_pos he] at hg
      obtain rfl := Option.some_inj.mp hg
      rw [he, hQ]
      have := mapSumQ_nonneg Q rest hrest
      simp
      omega
    · rw [jsGet, if_neg he] at hg
      have h1 := ih hrest hg
      have h2 : (0:ℤ) ≤ if Q e.1 then e.2 else 0 := by
        by_cases hq : Q e.1
        · simpa [hq] using (hpos e (List.mem_cons_self e rest)).le
        · simp [hq]
      omega

theorem mapSum_eq_zero_iff (m : List (α × ℤ)) (hpos : ∀ e ∈ m, 0 < e.2) :
    mapSum m = 0 ↔ m = [] := by
  cases m with
  | nil => simp [mapSum]
  | cons e rest =>
    have h1 := hpos e (List.mem_cons_self e rest)
    have h2 := mapSum_nonneg rest
      (fun e' he' => hpos e' (List.mem_cons.mpr (Or.inr he')))
    rw [mapSum_cons]
    simp only [List.cons_ne_nil, iff_false]
    omega

theorem filter_eq_nil_of_mapSumQ_zero (Q : α → Bool) (m : List (α × ℤ))
    (hpos : ∀ e ∈ m, 0 < e.2) (h : mapSumQ Q m = 0) :
    m.filter (fun e => Q e.1) = [] := by
  refine (mapSum_eq_zero_iff _ (fun e he => hpos e (List.mem_of_mem_filter he))).mp h

end SumLemmas

/-! ## Lemmas about the key encoding and its parsing -/

theorem splitFirstColon_append (s r : Str) (h : ':' ∉ s) :
    splitFirstColon (s ++ ':' :: r) = some (s, r) := by
  induction s with
  | nil => simp [splitFirstColon]
  | cons c s' ih =>
    simp only [List.mem_cons, not_or] at h
    have hc : ¬(c = ':') := fun hh => h.1 hh.symm
    simp [splitFirstColon, hc, ih h.2]

theorem splitFirstColon_sound : ∀ (k : Str) (q : Str × Str),
    splitFirstColon k = some q → k = q.1 ++ ':' :: q.2 ∧ ':' ∉ q.1
  | [], _, h => by simp [splitFirstColon] at h
  | c :: rest, q, h => by
    by_cases hc : c = ':'
    · subst hc
      rw [splitFirstColon, if_pos rfl] at h
      obtain rfl := Option.some_inj.mp h
      simp
    · rw [splitFirstColon, if_neg hc] at h
      rcases Option.map_eq_some'.mp h with ⟨q', hq', rfl⟩
      obtain ⟨h1, h2⟩ := splitFirstColon_sound rest q' hq'
      constructor
      · simpa using congrArg (fun l => c :: l) h1
      · simp only [List.mem_cons, not_or]
        exact ⟨fun hh => hc hh.symm, h2⟩

theorem parseNatCore_colon : ∀ (acc : Nat) (r : Str), ':' ∈ r →
    parseNatCore acc r = none
  | _, [], h => by simp at h
  | acc, c :: rest, h => by
    cases hc : charDigit? c with
    | none => rw [parseNatCore, hc]
    | some d =>
      rcases List.mem_cons.mp h with h | h
      · rw [← h] at hc
        rw [show charDigit? ':' = none from by decide] at hc
        exact Option.noConfusion hc
      · rw [parseNatCore, hc]
        exact parseNatCore_colon _ rest h

theorem parseNat_colon (r : Str) (h : ':' ∈ r) : parseNat r = none := by
  cases r with
  | nil => simp at h
  | cons c rest => exact parseNatCore_colon 0 (c :: rest) h

theorem natRepr_no_colon : ∀ p : Fin 128, ':' ∉ natRepr p.val := by decide

theorem parseNat_natRepr : ∀ p : Fin 128, parseNat (natRepr p.val) = some p.val := by
  decide

theorem splitFirstColon_encodeKey (s : Str) (p : Fin 128) (h : ':' ∉ s) :
    splitFirstColon (encodeKey s p) = some (s, natRepr p.val) :=
  splitFirstColon_append s (natRepr p.val) h

theorem splitLastColon_encodeKey (s : Str) (p : Fin 128) :
    splitLastColon (encodeKey s p) = some (s, natRepr p.val) := by
  unfold splitLastColon encodeKey
  have hrev : (s ++ ':' :: natRepr p.val).reverse =
      (natRepr p.val).reverse ++ ':' :: s.reverse := by
    rw [List.reverse_append, List.reverse_cons, List.append_assoc]
    rfl
  rw [hrev, splitFirstColon_append _ _ (by
    intro hmem
    exact natRepr_no_colon p (List.mem_reverse.mp hmem))]
  simp

theorem decodeKey_encodeKey (s : Str) (p : Fin 128) :
    decodeKey (encodeKey s p) = some (s, p) := by
  rw [decodeKey, splitLastColon_encodeKey]
  simp [parseNat_natRepr p, p.isLt]

theorem encodeKey_inj {s s' : Str} {p p' : Fin 128}
    (h : encodeKey s p = encodeKey s' p') : s = s' ∧ p = p' := by
  have h1 := decodeKey_encodeKey s p
  rw [h, decodeKey_encodeKey] at h1
  obtain ⟨h2, h3⟩ := Prod.mk.injEq .. ▸ Option.some_inj.mp h1
  exact ⟨h2.symm, h3.symm⟩

theorem colon_mem_of_two_splits : ∀ (a₁ x₁ a₂ x₂ : Str),
    a₁ ++ ':' :: x₁ = a₂ ++ ':' :: x₂ → ':' ∉ a₁ → ':' ∈ a₂ → ':' ∈ x₁
  | [], x₁, a₂, x₂, h, _, hmem => by
    cases a₂ with
    | nil => simp at hmem
    | cons d a₂' =>
      simp only [List.nil_append, List.cons_append, List.cons.injEq] at h
      rw [h.2]
      exact List.mem_append.mpr (Or.inr (List.mem_cons_self _ _))
  | c :: a₁', x₁, a₂, x₂, h, hnc, hmem => by
    cases a₂ with
    | nil => simp at hmem
    | cons d a₂' =>
      simp only [List.cons_append, List.cons.injEq] at h
      simp only [List.mem_cons, not_or] at hnc
      rcases List.mem_cons.mp hmem with hd | hd
      · exact absurd (hd.trans h.1.symm) hnc.1
      · exact colon_mem_of_two_splits a₁' x₁ a₂' x₂ h.2 hnc.2 hd

theorem colon_split_unique : ∀ (a₁ x₁ a₂ x₂ : Str),
    a₁ ++ ':' :: x₁ = a₂ ++ ':' :: x₂ → ':' ∉ a₁ → ':' ∉ a₂ → a₁ = a₂ ∧ x₁ = x₂
  | [], x₁, a₂, x₂, h, _, hn₂ => by
    cases a₂ with
    | nil =>
      simp only [List.nil_append, List.cons.injEq] at h
      exact ⟨rfl, h.2⟩
    | cons d a₂' =>
      simp only [List.nil_append, List.cons_append, List.cons.injEq] at h
      exact absurd (List.mem_cons.mpr (Or.inl h.1)) hn₂
  | c :: a₁', x₁, a₂, x₂, h, hn₁, hn₂ => by
    cases a₂ with
    | nil =>
      simp only [List.cons_append, List.nil_append, List.cons.injEq] at h
      exact absurd (List.mem_cons.mpr (Or.inl h.1.symm)) hn₁
    | cons d a₂' =>
      simp only [List.cons_append, List.cons.injEq] at h
      simp only [List.mem_cons, not_or] at hn₁ hn₂
      obtain ⟨ha, hx⟩ := colon_split_unique a₁' x₁ a₂' x₂ h.2 hn₁.2 hn₂.2
      exact ⟨by rw [h.1, ha], hx⟩

/-- A well-formed key processed by the clear loop parses back to its true
source and pitch: if `encodeKey s p` splits at its first colon into
`(s₀, rest)` and `rest` parses as a natural number, then `s = s₀` (so
`s` is colon-free) and the number is `p`. -/
theorem splitFirstColon_encodeKey_cases (s : Str) (p : Fin 128) (s₀ rest : Str)
    (hsplit : splitFirstColon (encodeKey s p) = some (s₀, rest))
    (m : Nat) (hparse : parseNat rest = some m) :
    s₀ = s ∧ rest = natRepr p.val ∧ m = p.val := by
  obtain ⟨heq, hnc⟩ := splitFirstColon_sound _ _ hsplit
  by_cases hcs : ':' ∈ s
  · exfalso
    have hmem : ':' ∈ rest :=
      colon_mem_of_two_splits s₀ rest s (natRepr p.val)
        (by rw [← heq]; rfl) hnc hcs
    rw [parseNat_colon rest hmem] at hparse
    exact Option.noConfusion hparse
  · obtain ⟨h1, h2⟩ := colon_split_unique s₀ rest s (natRepr p.val)
      (by rw [← heq]; rfl) hnc hcs
    refine ⟨h1, h2, ?_⟩
    rw [h2, parseNat_natRepr p] at hparse
    exact (Option.some_inj.mp hparse).symm

theorem keyHasPitch_encodeKey_self (s : Str) (p : Fin 128) :
    keyHasPitch p (encodeKey s p) = true := by
  simp [keyHasPitch, decodeKey_encodeKey]

theorem keyHasPitch_encodeKey_ne (s : Str) {p p' : Fin 128} (h : ¬(p' = p)) :
    keyHasPitch p' (encodeKey s p) = false := by
  simp only [keyHasPitch, decodeKey_encodeKey, Option.map_some']
  simpa using fun hh => h hh.symm

/-! ## C4: the Off-event algorithm with clamping at zero -/

theorem clampNoteNumber_coe (p : Fin 128) :
    clampNoteNumber (.num ((p.val : ℚ))) = some ((p.val : ℚ)) := by
  have h : ¬(((p.val : ℚ)) < 0 ∨ 128 ≤ ((p.val : ℚ))) := by
    push_neg
    refine ⟨by positivity, ?_⟩
    exact_mod_cast p.isLt
  simp [clampNoteNumber, h]

theorem toPitch_coe (p : Fin 128) : toPitch ((p.val : ℚ)) = some p := by
  unfold toPitch
  have hc : 0 ≤ ((p.val : ℚ)).num ∧ ((p.val : ℚ)).num < 128 ∧ ((p.val : ℚ)).den = 1 := by
    refine ⟨by simp [Rat.num_natCast], ?_, by simp [Rat.den_natCast]⟩
    rw [Rat.num_natCast]
    exact_mod_cast p.isLt
  rw [dif_pos hc]
  apply congrArg
  apply Fin.ext
  simp [Rat.num_natCast]

/-- The interface-level form of an Off event for an integer pitch
reaches `applyClamped` with that pitch. -/
theorem applyHighlightEventInPlace_coe (state : HighlightState)
    (ty : HighlightEventType) (s : Str) (p : Fin 128) (t : ℚ) :
    applyHighlightEventInPlace state ⟨ty, .num ((p.val : ℚ)), s, t⟩ =
      some (applyClamped state ty s p t) := by
  simp [applyHighlightEventInPlace, clampNoteNumber_coe, toPitch_coe]

/-- C4: for every highlight state with well-formed map representations
and every Off event for `(s, p)`, applying the event sets the active
count for the key to `max 0 (previous - 1)` removing the entry at 0,
decrements the per-pitch source breakdown symmetrically removing it at
0, sets `totalsByNote[p]` to `max 0 (previous - 1)` (never negative),
records the event time in `lastNoteOffTimeMs[p]`, and clears
`lastSourceKey[p]` exactly when the new total is 0; in particular an
unmatched Off (count 0) deletes nothing, drives nothing negative and
does not corrupt the counts. -/
theorem off_event_clamps_at_zero (state : HighlightState) (s : Str) (p : Fin 128)
    (t : ℚ) (h1 : (keysOf state.countsByActiveKey).Nodup)
    (h2 : (keysOf (state.sourcesByNote p)).Nodup) :
    offSpec state s p t := by
  unfold offSpec
  refine ⟨applyHighlightEventInPlace_coe state .off s p t, ?_, ?_, ?_, ?_, ?_, ?_⟩
  · simp only [applyClamped]
    by_cases hz : max 0 ((jsGet state.countsByActiveKey (encodeKey s p)).getD 0 - 1) = 0
    · rw [if_pos hz, if_pos hz]
      exact jsGet_jsDelete_self _ _ h1
    · rw [if_neg hz, if_neg hz]
      exact jsGet_jsSet_self _ _ _
  · simp only [applyClamped, if_pos rfl]
    by_cases hz : max 0 ((jsGet (state.sourcesByNote p) s).getD 0 - 1) = 0
    · rw [if_pos hz, if_pos hz]
      exact jsGet_jsDelete_self _ _ h2
    · rw [if_neg hz, if_neg hz]
      exact jsGet_jsSet_self _ _ _
  · simp [applyClamped]
  · simp [applyClamped]
  · simp [applyClamped]
  · simp only [applyClamped]
    by_cases hz : max 0 (state.totalsByNote p - 1) = 0
    · rw [if_pos hz, if_pos ⟨by trivial, hz⟩]
    · rw [if_neg hz, if_neg (fun hh => hz hh.2)]

/-- Witness: the Off-event algorithm evaluated on the concrete state
holding one activation of `(60, "0")`. -/
theorem off_event_clamps_at_zero_witness :
    (keysOf retriggerBase.countsByActiveKey).Nodup ∧
    (keysOf (retriggerBase.sourcesByNote 60)).Nodup ∧
    offSpec retriggerBase "0".data 60 7 :=
  ⟨by decide, by decide,
   off_event_clamps_at_zero retriggerBase "0".data 60 7 (by decide) (by decide)⟩

/-! ## Lemmas about one iteration of the clear loop -/

theorem clearEntry_of_split_none (pred : Str → Bool) (next : HighlightState)
    (entry : Str × ℤ) (h : splitFirstColon entry.1 = none) :
    clearEntry pred next entry = next := by
  unfold clearEntry
  split
  · rfl
  · rename_i q heq
    rw [h] at heq
    exact Option.noConfusion heq

theorem clearEntry_of_pred_false (pred : Str → Bool) (next : HighlightState)
    (entry : Str × ℤ) (q : Str × Str)
    (hsplit : splitFirstColon entry.1 = some q) (hpred : pred q.1 = false) :
    clearEntry pred next entry = next := by
  unfold clearEntry
  split
  · rfl
  · rename_i q' heq
    rw [hsplit] at heq
    obtain rfl : q = q' := Option.some_inj.mp heq
    rw [if_pos hpred]

theorem clearEntry_of_parse_none (pred : Str → Bool) (next : HighlightState)
    (entry : Str × ℤ) (q : Str × Str)
    (hsplit : splitFirstColon entry.1 = some q) (hparse : parseNat q.2 = none) :
    clearEntry pred next entry = next := by
  unfold clearEntry
  split
  · rfl
  · rename_i q' heq
    rw [hsplit] at heq
    obtain rfl : q = q' := Option.some_inj.mp heq
    by_cases hp : pred q.1 = false
    · rw [if_pos hp]
    · rw [if_neg hp]
      split
      · rfl
      · rename_i m heq2
        rw [hparse] at heq2
        exact Option.noConfusion heq2

theorem clearEntry_processed (pred : Str → Bool) (next : HighlightState)
    (entry : Str × ℤ) (q : Str × Str) (m : Nat) (hm : m < 128)
    (hsplit : splitFirstColon entry.1 = some q)
    (hpred : ¬(pred q.1 = false)) (hparse : parseNat q.2 = some m) :
    clearEntry pred next entry =
      { countsByActiveKey := jsDelete next.countsByActiveKey entry.1
        totalsByNote := fun i =>
          if i = (⟨m, hm⟩ : Fin 128) then
            max 0 (next.totalsByNote ⟨m, hm⟩ - entry.2)
          else next.totalsByNote i
        sourcesByNote := fun i =>
          if i = (⟨m, hm⟩ : Fin 128) then
            if max 0 ((jsGet (next.sourcesByNote ⟨m, hm⟩) q.1).getD 0 - entry.2) = 0 then
              jsDelete (next.sourcesByNote ⟨m, hm⟩) q.1
            else jsSet (next.sourcesByNote ⟨m, hm⟩) q.1
              (max 0 ((jsGet (next.sourcesByNote ⟨m, hm⟩) q.1).getD 0 - entry.2))
          else next.sourcesByNote i
        lastNoteOnTimeMs := next.lastNoteOnTimeMs
        lastNoteOffTimeMs := next.lastNoteOffTimeMs
        lastSourceKey := fun i =>
          if i = (⟨m, hm⟩ : Fin 128) ∧ max 0 (next.totalsByNote ⟨m, hm⟩ - entry.2) = 0 then
            none
          else next.lastSourceKey i
        lastPulseTimeMs := next.lastPulseTimeMs } := by
  unfold clearEntry
  split
  · rename_i heq
    rw [hsplit] at heq
    exact Option.noConfusion heq
  · rename_i q' heq
    rw [hsplit] at heq
    obtain rfl : q = q' := Option.some_inj.mp heq
    rw [if_neg hpred]
    split
    · rename_i heq2
      rw [hparse] at heq2
      exact Option.noConfusion heq2
    · rename_i m' heq2
      rw [hparse] at heq2
      obtain rfl : m = m' := Option.some_inj.mp heq2
      rw [dif_pos hm]

theorem clearEntry_of_out_of_range (pred : Str → Bool) (next : HighlightState)
    (entry : Str × ℤ) (q : Str × Str) (m : Nat)
    (hsplit : splitFirstColon entry.1 = some q)
    (hparse : parseNat q.2 = some m) (hm : ¬(m < 128)) :
    clearEntry pred next entry = next := by
  unfold clearEntry
  split
  · rfl
  · rename_i q' heq
    rw [hsplit] at heq
    obtain rfl : q = q' := Option.some_inj.mp heq
    by_cases hp : pred q.1 = false
    · rw [if_pos hp]
    · rw [if_neg hp]
      split
      · rfl
      · rename_i m' heq2
        rw [hparse] at heq2
        obtain rfl : m = m' := Option.some_inj.mp heq2
        rw [dif_neg hm]

theorem clearEntry_counts_sublist (pred : Str → Bool) (next : HighlightState)
    (entry : Str × ℤ) :
    List.Sublist (clearEntry pred next entry).countsByActiveKey
      next.countsByActiveKey := by
  cases hx : splitFirstColon entry.1 with
  | none =>
    rw [clearEntry_of_split_none pred next entry hx]
  | some q =>
    by_cases hp : pred q.1 = false
    · rw [clearEntry_of_pred_false pred next entry q hx hp]
    · cases hparse : parseNat q.2 with
      | none =>
        rw [clearEntry_of_parse_none pred next entry q hx hparse]
      | some m =>
        by_cases hm : m < 128
        · rw [clearEntry_processed pred next entry q m hm hx hp hparse]
          exact jsDelete_sublist _ _
        · rw [clearEntry_of_out_of_range pred next entry q m hx hparse hm]

theorem clearEntry_counts_jsGet_keep (pred : Str → Bool) (next : HighlightState)
    (entry : Str × ℤ) (s0 : Str) (p0 : Fin 128)
    (hs0 : ':' ∉ s0) (hpred : pred s0 = false) :
    jsGet (clearEntry pred next entry).countsByActiveKey (encodeKey s0 p0) =
      jsGet next.countsByActiveKey (encodeKey s0 p0) := by
  cases hx : splitFirstColon entry.1 with
  | none => rw [clearEntry_of_split_none pred next entry hx]
  | some q =>
    by_cases hp : pred q.1 = false
    · rw [clearEntry_of_pred_false pred next entry q hx hp]
    · cases hparse : parseNat q.2 with
      | none => rw [clearEntry_of_parse_none pred next entry q hx hparse]
      | some m =>
        by_cases hm : m < 128
        · rw [clearEntry_processed pred next entry q m hm hx hp hparse]
          apply jsGet_jsDelete_ne
          intro hk
          rw [← hk, splitFirstColon_encodeKey s0 p0 hs0] at hx
          obtain rfl : (s0, natRepr p0.val) = q := Option.some_inj.mp hx
          exact hp hpred
        · rw [clearEntry_of_out_of_range pred next entry q m hx hparse hm]

theorem clearEntry_sources_jsGet_keep (pred : Str → Bool) (next : HighlightState)
    (entry : Str × ℤ) (s0 : Str) (p1 : Fin 128) (hpred : pred s0 = false) :
    jsGet ((clearEntry pred next entry).sourcesByNote p1) s0 =
      jsGet (next.sourcesByNote p1) s0 := by
  cases hx : splitFirstColon entry.1 with
  | none => rw [clearEntry_of_split_none pred next entry hx]
  | some q =>
    by_cases hp : pred q.1 = false
    · rw [clearEntry_of_pred_false pred next entry q hx hp]
    · cases hparse : parseNat q.2 with
      | none => rw [clearEntry_of_parse_none pred next entry q hx hparse]
      | some m =>
        by_cases hm : m < 128
        · rw [clearEntry_processed pred next entry q m hm hx hp hparse]
          have hne : ¬(s0 = q.1) := by
            intro hh
            rw [hh] at hpred
            exact hp hpred
          by_cases hi : p1 = (⟨m, hm⟩ : Fin 128)
          · subst hi
            simp only [if_pos rfl, ite_true]
            by_cases hz :
              max 0 ((jsGet (next.sourcesByNote (⟨m, hm⟩ : Fin 128)) q.1).getD 0 - entry.2) = 0
            · rw [if_pos hz]
              exact jsGet_jsDelete_ne _ _ hne
            · rw [if_neg hz]
              exact jsGet_jsSet_ne _ _ _ hne
          · simp only [if_neg hi]
        · rw [clearEntry_of_out_of_range pred next entry q m hx hparse hm]

theorem clearEntry_deletes_key (pred : Str → Bool) (next : HighlightState)
    (s0 : Str) (p0 : Fin 128) (c : ℤ)
    (hs0 : ':' ∉ s0) (hpred : ¬(pred s0 = false)) :
    (clearEntry pred next (encodeKey s0 p0, c)).countsByActiveKey =
      jsDelete next.countsByActiveKey (encodeKey s0 p0) := by
  rw [clearEntry_processed pred next (encodeKey s0 p0, c) (s0, natRepr p0.val)
    p0.val p0.isLt (splitFirstColon_encodeKey s0 p0 hs0) hpred (parseNat_natRepr p0)]

/-! ## Folding the clear loop -/

theorem foldl_clearEntry_counts_keep (pred : Str → Bool) (s0 : Str) (p0 : Fin 128)
    (hs0 : ':' ∉ s0) (hpred : pred s0 = false) :
    ∀ (L : List (Str × ℤ)) (next : HighlightState),
      jsGet ((L.foldl (clearEntry pred) next)).countsByActiveKey (encodeKey s0 p0) =
        jsGet next.countsByActiveKey (encodeKey s0 p0)
  | [], _ => rfl
  | e :: L', next => by
    rw [List.foldl_cons,
      foldl_clearEntry_counts_keep pred s0 p0 hs0 hpred L' (clearEntry pred next e)]
    exact clearEntry_counts_jsGet_keep pred next e s0 p0 hs0 hpred

theorem foldl_clearEntry_sources_keep (pred : Str → Bool) (s0 : Str) (p1 : Fin 128)
    (hpred : pred s0 = false) :
    ∀ (L : List (Str × ℤ)) (next : HighlightState),
      jsGet ((L.foldl (clearEntry pred) next).sourcesByNote p1) s0 =
        jsGet (next.sourcesByNote p1) s0
  | [], _ => rfl
  | e :: L', next => by
    rw [List.foldl_cons,
      foldl_clearEntry_sources_keep pred s0 p1 hpred L' (clearEntry pred next e)]
    exact clearEntry_sources_jsGet_keep pred next e s0 p1 hpred

theorem foldl_clearEntry_removes (pred : Str → Bool) (s0 : Str) (p0 : Fin 128)
    (hs0 : ':' ∉ s0) (hpred : ¬(pred s0 = false)) :
    ∀ (L : List (Str × ℤ)) (next : HighlightState),
      (keysOf next.countsByActiveKey).Nodup →
      ((∃ c, (encodeKey s0 p0, c) ∈ L) ∨
        jsGet next.countsByActiveKey (encodeKey s0 p0) = none) →
      jsGet ((L.foldl (clearEntry pred) next)).countsByActiveKey (encodeKey s0 p0) = none
  | [], next, _, hdisj => by
    rcases hdisj with ⟨c, hc⟩ | h
    · simp at hc
    · exact h
  | e :: L', next, hnd, hdisj => by
    rw [List.foldl_cons]
    have hnd' : (keysOf (clearEntry pred next e).countsByActiveKey).Nodup :=
      ((clearEntry_counts_sublist pred next e).map Prod.fst).nodup hnd
    apply foldl_clearEntry_removes pred s0 p0 hs0 hpred L' _ hnd'
    rcases hdisj with ⟨c, hc⟩ | h
    · rcases List.mem_cons.mp hc with hc | hc
      · right
        rw [← hc, clearEntry_deletes_key pred next s0 p0 c hs0 hpred]
        exact jsGet_jsDelete_self _ _ hnd
      · exact Or.inl ⟨c, hc⟩
    · right
      have hnm := not_mem_keys_of_jsGet_none _ _ h
      apply jsGet_eq_none_of_not_mem
      intro hmem
      exact hnm (((clearEntry_counts_sublist pred next e).map Prod.fst).subset hmem)

theorem clearHighlightsByPredicate_counts_keep (st : HighlightState) (pred : Str → Bool)
    (s0 : Str) (p0 : Fin 128) (hs0 : ':' ∉ s0) (hpred : pred s0 = false) :
    jsGet (clearHighlightsByPredicate st pred).countsByActiveKey (encodeKey s0 p0) =
      jsGet st.countsByActiveKey (encodeKey s0 p0) := by
  unfold clearHighlightsByPredicate
  by_cases h : st.countsByActiveKey = []
  · rw [if_pos h]
  · rw [if_neg h]
    exact foldl_clearEntry_counts_keep pred s0 p0 hs0 hpred _ st

theorem clearHighlightsByPredicate_sources_keep (st : HighlightState) (pred : Str → Bool)
    (s0 : Str) (p1 : Fin 128) (hpred : pred s0 = false) :
    jsGet ((clearHighlightsByPredicate st pred).sourcesByNote p1) s0 =
      jsGet (st.sourcesByNote p1) s0 := by
  unfold clearHighlightsByPredicate
  by_cases h : st.countsByActiveKey = []
  · rw [if_pos h]
  · rw [if_neg h]
    exact foldl_clearEntry_sources_keep pred s0 p1 hpred _ st

theorem clearHighlightsByPredicate_removes (st : HighlightState) (pred : Str → Bool)
    (s0 : Str) (p0 : Fin 128) (hs0 : ':' ∉ s0) (hpred : ¬(pred s0 = false))
    (hnd : (keysOf st.countsByActiveKey).Nodup) :
    jsGet (clearHighlightsByPredicate st pred).countsByActiveKey (encodeKey s0 p0) = none := by
  unfold clearHighlightsByPredicate
  by_cases h : st.countsByActiveKey = []
  · rw [if_pos h, h]
    rfl
  · rw [if_neg h]
    apply foldl_clearEntry_removes pred s0 p0 hs0 hpred _ st hnd
    by_cases hk : encodeKey s0 p0 ∈ keysOf st.countsByActiveKey
    · left
      rcases List.mem_map.mp hk with ⟨e, he, hfst⟩
      refine ⟨e.2, ?_⟩
      have : (encodeKey s0 p0, e.2) = e := by
        rw [← hfst]
      rw [this]
      exact he
    · exact Or.inr (jsGet_eq_none_of_not_mem _ _ hk)

/-! ## C8: the seek frame effect on highlight state -/

/-- C8: after a seek, the queued highlight events are all discarded
unflushed (the new buffer is empty, and the queue only ever holds
playback-sourced events), every activation whose source key is a
colon-free playback key (any key other than `"input"`; track keys are
decimal numbers) is removed from the active-key map, and the live-input
activations are preserved exactly: the `"input"` entries of the
active-key map and of every per-pitch source breakdown are unchanged. -/
theorem seek_highlight_frame (data : MidiData) (tr : TransportState)
    (hl : HighlightState) (queue : List HighlightEvent) (time now : ℚ)
    (s : Str) (p : Fin 128)
    (hnd : (keysOf hl.countsByActiveKey).Nodup)
    (hs : ':' ∉ s) (hsi : ¬(s = inputKey)) :
    (handleSeek data tr hl queue time now).2.2.2 = [] ∧
    jsGet (handleSeek data tr hl queue time now).2.2.1.countsByActiveKey
      (encodeKey s p) = none ∧
    (∀ p0 : Fin 128,
      jsGet (handleSeek data tr hl queue time now).2.2.1.countsByActiveKey
          (encodeKey inputKey p0) =
        jsGet hl.countsByActiveKey (encodeKey inputKey p0)) ∧
    (∀ p0 : Fin 128,
      jsGet ((handleSeek data tr hl queue time now).2.2.1.sourcesByNote p0) inputKey =
        jsGet (hl.sourcesByNote p0) inputKey) := by
  have hpred : ¬((fun candidate => (decide (¬(candidate = inputKey)))) s = false) := by
    simp [hsi]
  have hkeep : (fun candidate => (decide (¬(candidate = inputKey)))) inputKey = false := by
    simp
  refine ⟨rfl, ?_, ?_, ?_⟩
  · exact clearHighlightsByPredicate_removes hl _ s p hs hpred hnd
  · intro p0
    exact clearHighlightsByPredicate_counts_keep hl _ inputKey p0 (by decide) hkeep
  · intro p0
    exact clearHighlightsByPredicate_sources_keep hl _ inputKey p0 hkeep

/-- Witness: the seek frame effect on a concrete state holding playback
activations for `(60, "0")` and live-input activations for 60 and 64. -/
theorem seek_highlight_frame_witness :
    (keysOf seekWitnessState.countsByActiveKey).Nodup ∧
    (':' ∉ "0".data) ∧ ¬("0".data = inputKey) ∧
    ((handleSeek smallSong pausedTransport seekWitnessState [] 3 100).2.2.2 = [] ∧
    jsGet (handleSeek smallSong pausedTransport seekWitnessState [] 3 100).2.2.1.countsByActiveKey
      (encodeKey "0".data 60) = none ∧
    (∀ p0 : Fin 128,
      jsGet (handleSeek smallSong pausedTransport seekWitnessState [] 3 100).2.2.1.countsByActiveKey
          (encodeKey inputKey p0) =
        jsGet seekWitnessState.countsByActiveKey (encodeKey inputKey p0)) ∧
    (∀ p0 : Fin 128,
      jsGet ((handleSeek smallSong pausedTransport seekWitnessState [] 3 100).2.2.1.sourcesByNote p0) inputKey =
        jsGet (seekWitnessState.sourcesByNote p0) inputKey)) :=
  ⟨by decide, by decide, by decide,
   seek_highlight_frame smallSong pausedTransport seekWitnessState [] 3 100
     "0".data 60 (by decide) (by decide) (by decide)⟩

/-! ## C1: conservation invariant — event preservation -/

theorem applyClamped_on_counts (st : HighlightState) (s : Str) (p : Fin 128) (t : ℚ) :
    (applyClamped st .on s p t).countsByActiveKey =
      jsSet st.countsByActiveKey (encodeKey s p)
        ((jsGet st.countsByActiveKey (encodeKey s p)).getD 0 + 1) := rfl

theorem applyClamped_on_sources (st : HighlightState) (s : Str) (p : Fin 128) (t : ℚ) :
    (applyClamped st .on s p t).sourcesByNote = fun i =>
      if i = p then
        jsSet (st.sourcesByNote p) s ((jsGet (st.sourcesByNote p) s).getD 0 + 1)
      else st.sourcesByNote i := rfl

theorem applyClamped_on_totals (st : HighlightState) (s : Str) (p : Fin 128) (t : ℚ) :
    (applyClamped st .on s p t).totalsByNote = fun i =>
      if i = p then st.totalsByNote p + 1 else st.totalsByNote i := rfl

theorem applyClamped_off_counts (st : HighlightState) (s : Str) (p : Fin 128) (t : ℚ) :
    (applyClamped st .off s p t).countsByActiveKey =
      (if max 0 ((jsGet st.countsByActiveKey (encodeKey s p)).getD 0 - 1) = 0 then
        jsDelete st.countsByActiveKey (encodeKey s p)
      else
        jsSet st.countsByActiveKey (encodeKey s p)
          (max 0 ((jsGet st.countsByActiveKey (encodeKey s p)).getD 0 - 1))) := rfl

theorem applyClamped_off_sources (st : HighlightState) (s : Str) (p : Fin 128) (t : ℚ) :
    (applyClamped st .off s p t).sourcesByNote = fun i =>
      if i = p then
        if max 0 ((jsGet (st.sourcesByNote p) s).getD 0 - 1) = 0 then
          jsDelete (st.sourcesByNote p) s
        else
          jsSet (st.sourcesByNote p) s
            (max 0 ((jsGet (st.sourcesByNote p) s).getD 0 - 1))
      else st.sourcesByNote i := rfl

theorem applyClamped_off_totals (st : HighlightState) (s : Str) (p : Fin 128) (t : ℚ) :
    (applyClamped st .off s p t).totalsByNote = fun i =>
      if i = p then max 0 (st.totalsByNote p - 1) else st.totalsByNote i := rfl

theorem HSInv_applyClamped_on (st : HighlightState) (s : Str) (p : Fin 128) (t : ℚ)
    (inv : HSInv st) : HSInv (applyClamped st .on s p t) := by
  have hlink := inv.link p s
  refine ⟨?_, ?_, ?_, ?_, ?_, ?_, ?_, ?_⟩
  · rw [applyClamped_on_counts]
    exact nodup_keys_jsSet _ _ _ inv.nodupKeys
  · intro p1
    rw [applyClamped_on_sources]
    by_cases hi : p1 = p
    · subst hi
      simp only [if_pos rfl, ite_true]
      exact nodup_keys_jsSet _ _ _ (inv.nodupSrc p1)
    · simp only [if_neg hi]
      exact inv.nodupSrc p1
  · intro e he
    rw [applyClamped_on_counts] at he
    rcases mem_jsSet _ _ _ _ he with h | h
    · exact inv.keyWF e h
    · exact ⟨s, p, by rw [h]⟩
  · intro e he
    rw [applyClamped_on_counts] at he
    rcases mem_jsSet _ _ _ _ he with h | h
    · exact inv.countPos e h
    · rw [h]
      have h0 := getD_jsGet_nonneg st.countsByActiveKey (encodeKey s p) inv.countPos
      show 0 < (jsGet st.countsByActiveKey (encodeKey s p)).getD 0 + 1
      omega
  · intro p1 e he
    rw [applyClamped_on_sources] at he
    by_cases hi : p1 = p
    · subst hi
      simp only [if_pos rfl, ite_true] at he
      rcases mem_jsSet _ _ _ _ he with h | h
      · exact inv.srcPos p1 e h
      · rw [h]
        have h0 := getD_jsGet_nonneg (st.sourcesByNote p1) s (inv.srcPos p1)
        show 0 < (jsGet (st.sourcesByNote p1) s).getD 0 + 1
        omega
    · simp only [if_neg hi] at he
      exact inv.srcPos p1 e he
  · intro p1 s1
    rw [applyClamped_on_sources, applyClamped_on_counts]
    by_cases hi : p1 = p
    · subst hi
      simp only [if_pos rfl, ite_true]
      by_cases hs1 : s1 = s
      · subst hs1
        rw [jsGet_jsSet_self, jsGet_jsSet_self, hlink]
      · have hne : ¬(encodeKey s1 p1 = encodeKey s p1) :=
          fun hh => hs1 (encodeKey_inj hh).1
        rw [jsGet_jsSet_ne _ _ _ hs1, jsGet_jsSet_ne _ _ _ hne]
        exact inv.link p1 s1
    · simp only [if_neg hi]
      have hne : ¬(encodeKey s1 p1 = encodeKey s p) :=
        fun hh => hi (encodeKey_inj hh).2
      rw [jsGet_jsSet_ne _ _ _ hne]
      exact inv.link p1 s1
  · intro p1
    rw [applyClamped_on_totals, applyClamped_on_sources]
    by_cases hi : p1 = p
    · subst hi
      simp only [if_pos rfl, ite_true]
      rw [mapSum_jsSet, inv.totalsSrc p1]
      ring
    · simp only [if_neg hi]
      exact inv.totalsSrc p1
  · intro p1
    rw [applyClamped_on_totals, applyClamped_on_counts]
    by_cases hi : p1 = p
    · subst hi
      simp only [if_pos rfl, ite_true]
      show st.totalsByNote p1 + 1 = mapSumQ (keyHasPitch p1) _
      rw [mapSumQ_jsSet_pos _ _ _ _ (keyHasPitch_encodeKey_self s p1)]
      have := inv.totalsKey p1
      rw [show pitchKeySum st.countsByActiveKey p1 =
        mapSumQ (keyHasPitch p1) st.countsByActiveKey from rfl] at this
      rw [← this]
      ring
    · simp only [if_neg hi]
      show st.totalsByNote p1 = mapSumQ (keyHasPitch p1) _
      rw [mapSumQ_jsSet_neg _ _ _ _ (keyHasPitch_encodeKey_ne s hi)]
      exact inv.totalsKey p1

theorem HSInv_applyClamped_off (st : HighlightState) (s : Str) (p : Fin 128) (t : ℚ)
    (inv : HSInv st)
    (hgood : 1 ≤ (jsGet st.countsByActiveKey (encodeKey s p)).getD 0) :
    HSInv (applyClamped st .off s p t) := by
  obtain ⟨c, hj, hc1⟩ : ∃ c, jsGet st.countsByActiveKey (encodeKey s p) = some c ∧ 1 ≤ c := by
    cases hj : jsGet st.countsByActiveKey (encodeKey s p) with
    | none => rw [hj] at hgood; simp at hgood
    | some c => exact ⟨c, rfl, by rw [hj] at hgood; simpa using hgood⟩
  have hlinkp : jsGet (st.sourcesByNote p) s = some c := by
    rw [inv.link p s, hj]
  have hgd : (jsGet st.countsByActiveKey (encodeKey s p)).getD 0 = c := by rw [hj]; rfl
  have hgds : (jsGet (st.sourcesByNote p) s).getD 0 = c := by rw [hlinkp]; rfl
  have hT : c ≤ st.totalsByNote p := by
    rw [inv.totalsSrc p]
    exact le_mapSum_of_jsGet _ _ _ (inv.srcPos p) hlinkp
  refine ⟨?_, ?_, ?_, ?_, ?_, ?_, ?_, ?_⟩
  · rw [applyClamped_off_counts]
    by_cases hz : max 0 ((jsGet st.countsByActiveKey (encodeKey s p)).getD 0 - 1) = 0
    · rw [if_pos hz]
      exact nodup_keys_jsDelete _ _ inv.nodupKeys
    · rw [if_neg hz]
      exact nodup_keys_jsSet _ _ _ inv.nodupKeys
  · intro p1
    rw [applyClamped_off_sources]
    by_cases hi : p1 = p
    · subst hi
      simp only [if_pos rfl, ite_true]
      by_cases hz : max 0 ((jsGet (st.sourcesByNote p1) s).getD 0 - 1) = 0
      · rw [if_pos hz]
        exact nodup_keys_jsDelete _ _ (inv.nodupSrc p1)
      · rw [if_neg hz]
        exact nodup_keys_jsSet _ _ _ (inv.nodupSrc p1)
    · simp only [if_neg hi]
      exact inv.nodupSrc p1
  · intro e he
    rw [applyClamped_off_counts] at he
    by_cases hz : max 0 ((jsGet st.countsByActiveKey (encodeKey s p)).getD 0 - 1) = 0
    · rw [if_pos hz] at he
      exact inv.keyWF e (mem_jsDelete _ _ _ he)
    · rw [if_neg hz] at he
      rcases mem_jsSet _ _ _ _ he with h | h
      · exact inv.keyWF e h
      · exact ⟨s, p, by rw [h]⟩
  · intro e he
    rw [applyClamped_off_counts] at he
    by_cases hz : max 0 ((jsGet st.countsByActiveKey (encodeKey s p)).getD 0 - 1) = 0
    · rw [if_pos hz] at he
      exact inv.countPos e (mem_jsDelete _ _ _ he)
    · rw [if_neg hz] at he
      rcases mem_jsSet _ _ _ _ he with h | h
      · exact inv.countPos e h
      · rw [h]
        show 0 < max 0 ((jsGet st.countsByActiveKey (encodeKey s p)).getD 0 - 1)
        omega
  · intro p1 e he
    rw [applyClamped_off_sources] at he
    by_cases hi : p1 = p
    · subst hi
      simp only [if_pos rfl, ite_true] at he
      by_cases hz : max 0 ((jsGet (st.sourcesByNote p1) s).getD 0 - 1) = 0
      · rw [if_pos hz] at he
        exact inv.srcPos p1 e (mem_jsDelete _ _ _ he)
      · rw [if_neg hz] at he
        rcases mem_jsSet _ _ _ _ he with h | h
        · exact inv.srcPos p1 e h
        · rw [h]
          show 0 < max 0 ((jsGet (st.sourcesByNote p1) s).getD 0 - 1)
          omega
    · simp only [if_neg hi] at he
      exact inv.srcPos p1 e he
  · intro p1 s1
    rw [applyClamped_off_sources, applyClamped_off_counts, hgd, hgds]
    by_cases hi : p1 = p
    · subst hi
      simp only [if_pos rfl, ite_true]
      by_cases hs1 : s1 = s
      · subst hs1
        by_cases hz : max 0 (c - 1) = 0
        · rw [if_pos hz, if_pos hz, jsGet_jsDelete_self _ _ (inv.nodupSrc p1),
            jsGet_jsDelete_self _ _ inv.nodupKeys]
        · rw [if_neg hz, if_neg hz, jsGet_jsSet_self, jsGet_jsSet_self]
      · have hne : ¬(encodeKey s1 p1 = encodeKey s p1) :=
          fun hh => hs1 (encodeKey_inj hh).1
        by_cases hz : max 0 (c - 1) = 0
        · rw [if_pos hz, if_pos hz, jsGet_jsDelete_ne _ _ hs1, jsGet_jsDelete_ne _ _ hne]
          exact inv.link p1 s1
        · rw [if_neg hz, if_neg hz, jsGet_jsSet_ne _ _ _ hs1, jsGet_jsSet_ne _ _ _ hne]
          exact inv.link p1 s1
    · simp only [if_neg hi]
      have hne : ¬(encodeKey s1 p1 = encodeKey s p) :=
        fun hh => hi (encodeKey_inj hh).2
      by_cases hz : max 0 (c - 1) = 0
      · rw [if_pos hz, jsGet_jsDelete_ne _ _ hne]
        exact inv.link p1 s1
      · rw [if_neg hz, jsGet_jsSet_ne _ _ _ hne]
        exact inv.link p1 s1
  · intro p1
    rw [applyClamped_off_totals, applyClamped_off_sources, hgds]
    by_cases hi : p1 = p
    · subst hi
      simp only [if_pos rfl, ite_true]
      have hTS := inv.totalsSrc p1
      by_cases hz : max 0 (c - 1) = 0
      · rw [if_pos hz, mapSum_jsDelete, hgds, ← hTS]
        omega
      · rw [if_neg hz, mapSum_jsSet, hgds, ← hTS]
        omega
    · simp only [if_neg hi]
      exact inv.totalsSrc p1
  · intro p1
    rw [applyClamped_off_totals, applyClamped_off_counts, hgd]
    by_cases hi : p1 = p
    · subst hi
      simp only [if_pos rfl, ite_true]
      have hTK : st.totalsByNote p1 = mapSumQ (keyHasPitch p1) st.countsByActiveKey :=
        inv.totalsKey p1
      show _ = mapSumQ (keyHasPitch p1) _
      by_cases hz : max 0 (c - 1) = 0
      · rw [if_pos hz, mapSumQ_jsDelete_pos _ _ _ (keyHasPitch_encodeKey_self s p1), hgd,
          ← hTK]
        omega
      · rw [if_neg hz, mapSumQ_jsSet_pos _ _ _ _ (keyHasPitch_encodeKey_self s p1), hgd,
          ← hTK]
        omega
    · simp only [if_neg hi]
      show _ = mapSumQ (keyHasPitch p1) _
      by_cases hz : max 0 (c - 1) = 0
      · rw [if_pos hz, mapSumQ_jsDelete_neg _ _ _ (keyHasPitch_encodeKey_ne s hi)]
        exact inv.totalsKey p1
      · rw [if_neg hz, mapSumQ_jsSet_neg _ _ _ _ (keyHasPitch_encodeKey_ne s hi)]
        exact inv.totalsKey p1

/-! ## C1: conservation invariant — clear preservation -/

theorem clearEntry_counts_jsGet_ne (pred : Str → Bool) (next : HighlightState)
    (entry : Str × ℤ) {a : Str} (h : ¬(a = entry.1)) :
    jsGet (clearEntry pred next entry).countsByActiveKey a =
      jsGet next.countsByActiveKey a := by
  cases hx : splitFirstColon entry.1 with
  | none => rw [clearEntry_of_split_none pred next entry hx]
  | some q =>
    by_cases hp : pred q.1 = false
    · rw [clearEntry_of_pred_false pred next entry q hx hp]
    · cases hparse : parseNat q.2 with
      | none => rw [clearEntry_of_parse_none pred next entry q hx hparse]
      | some m =>
        by_cases hm : m < 128
        · rw [clearEntry_processed pred next entry q m hm hx hp hparse]
          exact jsGet_jsDelete_ne _ _ h
        · rw [clearEntry_of_out_of_range pred next entry q m hx hparse hm]

theorem HSInv_clear_record (next : HighlightState) (s' : Str) (p' : Fin 128) (c : ℤ)
    (inv : HSInv next)
    (hlook : jsGet next.countsByActiveKey (encodeKey s' p') = some c) :
    HSInv
      { countsByActiveKey := jsDelete next.countsByActiveKey (encodeKey s' p')
        totalsByNote := fun i =>
          if i = p' then max 0 (next.totalsByNote p' - c) else next.totalsByNote i
        sourcesByNote := fun i =>
          if i = p' then
            if max 0 ((jsGet (next.sourcesByNote p') s').getD 0 - c) = 0 then
              jsDelete (next.sourcesByNote p') s'
            else jsSet (next.sourcesByNote p') s'
              (max 0 ((jsGet (next.sourcesByNote p') s').getD 0 - c))
          else next.sourcesByNote i
        lastNoteOnTimeMs := next.lastNoteOnTimeMs
        lastNoteOffTimeMs := next.lastNoteOffTimeMs
        lastSourceKey := fun i =>
          if i = p' ∧ max 0 (next.totalsByNote p' - c) = 0 then none
          else next.lastSourceKey i
        lastPulseTimeMs := next.lastPulseTimeMs } := by
  have hlinkp : jsGet (next.sourcesByNote p') s' = some c := by
    rw [inv.link p' s', hlook]
  have hgds : (jsGet (next.sourcesByNote p') s').getD 0 = c := by rw [hlinkp]; rfl
  have hzero : max 0 ((jsGet (next.sourcesByNote p') s').getD 0 - c) = 0 := by
    rw [hgds]
    simp
  have hT : c ≤ next.totalsByNote p' := by
    rw [inv.totalsSrc p']
    exact le_mapSum_of_jsGet _ _ _ (inv.srcPos p') hlinkp
  refine ⟨?_, ?_, ?_, ?_, ?_, ?_, ?_, ?_⟩
  · exact nodup_keys_jsDelete _ _ inv.nodupKeys
  · intro p1
    by_cases hi : p1 = p'
    · subst hi
      simp only [if_pos rfl, ite_true, hzero]
      exact nodup_keys_jsDelete _ _ (inv.nodupSrc p1)
    · simp only [if_neg hi]
      exact inv.nodupSrc p1
  · intro e he
    exact inv.keyWF e (mem_jsDelete _ _ _ he)
  · intro e he
    exact inv.countPos e (mem_jsDelete _ _ _ he)
  · intro p1 e he
    by_cases hi : p1 = p'
    · subst hi
      simp only [if_pos rfl, ite_true, hzero] at he
      exact inv.srcPos p1 e (mem_jsDelete _ _ _ he)
    · simp only [if_neg hi] at he
      exact inv.srcPos p1 e he
  · intro p1 s1
    by_cases hi : p1 = p'
    · subst hi
      simp only [if_pos rfl, ite_true, hzero]
      by_cases hs1 : s1 = s'
      · subst hs1
        rw [jsGet_jsDelete_self _ _ (inv.nodupSrc p1),
          jsGet_jsDelete_self _ _ inv.nodupKeys]
      · have hne : ¬(encodeKey s1 p1 = encodeKey s' p1) :=
          fun hh => hs1 (encodeKey_inj hh).1
        rw [jsGet_jsDelete_ne _ _ hs1, jsGet_jsDelete_ne _ _ hne]
        exact inv.link p1 s1
    · simp only [if_neg hi]
      have hne : ¬(encodeKey s1 p1 = encodeKey s' p') :=
        fun hh => hi (encodeKey_inj hh).2
      rw [jsGet_jsDelete_ne _ _ hne]
      exact inv.link p1 s1
  · intro p1
    by_cases hi : p1 = p'
    · subst hi
      simp only [if_pos rfl, ite_true, hzero]
      rw [mapSum_jsDelete, hgds, ← inv.totalsSrc p1]
      omega
    · simp only [if_neg hi]
      exact inv.totalsSrc p1
  · intro p1
    by_cases hi : p1 = p'
    · subst hi
      simp only [if_pos rfl, ite_true]
      show _ = mapSumQ (keyHasPitch p1) _
      rw [mapSumQ_jsDelete_pos _ _ _ (keyHasPitch_encodeKey_self s' p1), hlook]
      have hTK : next.totalsByNote p1 = mapSumQ (keyHasPitch p1) next.countsByActiveKey :=
        inv.totalsKey p1
      rw [← hTK]
      show max 0 (next.totalsByNote p1 - c) = next.totalsByNote p1 - (some c).getD 0
      rw [Option.getD_some]
      omega
    · simp only [if_neg hi]
      show _ = mapSumQ (keyHasPitch p1) _
      rw [mapSumQ_jsDelete_neg _ _ _ (keyHasPitch_encodeKey_ne s' hi)]
      exact inv.totalsKey p1

theorem HSInv_clearEntry (pred : Str → Bool) (next : HighlightState) (entry : Str × ℤ)
    (inv : HSInv next)
    (hlook : jsGet next.countsByActiveKey entry.1 = some entry.2) :
    HSInv (clearEntry pred next entry) := by
  cases hx : splitFirstColon entry.1 with
  | none =>
    rw [clearEntry_of_split_none pred next entry hx]
    exact inv
  | some q =>
    by_cases hp : pred q.1 = false
    · rw [clearEntry_of_pred_false pred next entry q hx hp]
      exact inv
    · cases hparse : parseNat q.2 with
      | none =>
        rw [clearEntry_of_parse_none pred next entry q hx hparse]
        exact inv
      | some m =>
        obtain ⟨s', p', hkey⟩ := inv.keyWF entry (jsGet_mem _ _ _ hlook)
        have hx' : splitFirstColon (encodeKey s' p') = some (q.1, q.2) := by
          rw [← hkey]
          exact hx
        obtain ⟨hq1, hq2, hmval⟩ :=
          splitFirstColon_encodeKey_cases s' p' q.1 q.2 hx' m hparse
        have hm : m < 128 := by
          rw [hmval]
          exact p'.isLt
        rw [clearEntry_processed pred next entry q m hm hx hp hparse]
        have hpfin : (⟨m, hm⟩ : Fin 128) = p' := Fin.ext hmval
        rw [hpfin, hq1, hkey]
        rw [hkey] at hlook
        exact HSInv_clear_record next s' p' entry.2 inv hlook

theorem HSInv_foldl_clearEntry (pred : Str → Bool) :
    ∀ (L : List (Str × ℤ)) (next : HighlightState),
      HSInv next →
      (∀ e ∈ L, jsGet next.countsByActiveKey e.1 = some e.2) →
      (L.map Prod.fst).Nodup →
      HSInv (L.foldl (clearEntry pred) next)
  | [], _, inv, _, _ => inv
  | e :: L', next, inv, hlook, hnd => by
    rw [List.foldl_cons]
    have hndt : (L'.map Prod.fst).Nodup := (List.nodup_cons.mp hnd).2
    have hhead : e.1 ∉ L'.map Prod.fst := (List.nodup_cons.mp hnd).1
    refine HSInv_foldl_clearEntry pred L' (clearEntry pred next e)
      (HSInv_clearEntry pred next e inv (hlook e (List.mem_cons_self e L'))) ?_ hndt
    intro e' he'
    have hne : ¬(e'.1 = e.1) := by
      intro hh
      exact hhead (hh ▸ List.mem_map.mpr ⟨e', he', rfl⟩)
    rw [clearEntry_counts_jsGet_ne pred next e hne]
    exact hlook e' (List.mem_cons.mpr (Or.inr he'))

theorem HSInv_clearHighlightsByPredicate (st : HighlightState) (pred : Str → Bool)
    (inv : HSInv st) : HSInv (clearHighlightsByPredicate st pred) := by
  unfold clearHighlightsByPredicate
  by_cases h : st.countsByActiveKey = []
  · rw [if_pos h]
    exact inv
  · rw [if_neg h]
    refine HSInv_foldl_clearEntry pred st.countsByActiveKey st inv ?_ inv.nodupKeys
    intro e he
    exact jsGet_of_mem_nodup _ e.1 e.2 inv.nodupKeys he

/-! ## C1: conservation invariant — operation level -/

theorem applyHighlightEventInPlace_of_clamp_none (st : HighlightState)
    (e : HighlightEvent) (h : clampNoteNumber e.noteNumber = none) :
    applyHighlightEventInPlace st e = some st := by
  unfold applyHighlightEventInPlace
  rw [h]

theorem applyHighlightEventInPlace_of_fractional (st : HighlightState)
    (e : HighlightEvent) (q : ℚ) (h1 : clampNoteNumber e.noteNumber = some q)
    (h2 : toPitch q = none) : applyHighlightEventInPlace st e = none := by
  unfold applyHighlightEventInPlace
  rw [h1]
  show (match toPitch q with
    | none => (none : Option HighlightState)
    | some p => some (applyClamped st e.type e.sourceKey p e.timeMs)) = none
  rw [h2]

theorem applyHighlightEventInPlace_of_pitch (st : HighlightState)
    (e : HighlightEvent) (q : ℚ) (p : Fin 128)
    (h1 : clampNoteNumber e.noteNumber = some q) (h2 : toPitch q = some p) :
    applyHighlightEventInPlace st e =
      some (applyClamped st e.type e.sourceKey p e.timeMs) := by
  unfold applyHighlightEventInPlace
  rw [h1]
  show (match toPitch q with
    | none => (none : Option HighlightState)
    | some p => some (applyClamped st e.type e.sourceKey p e.timeMs)) = _
  rw [h2]

theorem goodEvent_off_eq (st : HighlightState) (e : HighlightEvent) (q : ℚ)
    (p : Fin 128) (h1 : clampNoteNumber e.noteNumber = some q)
    (h2 : toPitch q = some p) (h3 : e.type = .off) :
    goodEvent st e =
      decide (1 ≤ (jsGet st.countsByActiveKey (encodeKey e.sourceKey p)).getD 0) := by
  unfold goodEvent
  rw [h1]
  show (match toPitch q with
    | none => true
    | some p =>
      match e.type with
      | .on => true
      | .off =>
        decide (1 ≤ (jsGet st.countsByActiveKey (encodeKey e.sourceKey p)).getD 0)) = _
  rw [h2]
  show (match e.type with
    | HighlightEventType.on => true
    | HighlightEventType.off =>
      decide (1 ≤ (jsGet st.countsByActiveKey (encodeKey e.sourceKey p)).getD 0)) = _
  rw [h3]

theorem HSInv_applyHighlightEventInPlace (st : HighlightState) (e : HighlightEvent)
    (st' : HighlightState) (inv : HSInv st) (hgood : goodEvent st e = true)
    (happ : applyHighlightEventInPlace st e = some st') : HSInv st' := by
  cases hc : clampNoteNumber e.noteNumber with
  | none =>
    rw [applyHighlightEventInPlace_of_clamp_none st e hc] at happ
    exact (Option.some_inj.mp happ) ▸ inv
  | some q =>
    cases ht : toPitch q with
    | none =>
      rw [applyHighlightEventInPlace_of_fractional st e q hc ht] at happ
      exact Option.noConfusion happ
    | some p =>
      rw [applyHighlightEventInPlace_of_pitch st e q p hc ht] at happ
      obtain rfl := Option.some_inj.mp happ
      cases hty : e.type
      · exact HSInv_applyClamped_on st e.sourceKey p e.timeMs inv
      · rw [goodEvent_off_eq st e q p hc ht hty] at hgood
        exact HSInv_applyClamped_off st e.sourceKey p e.timeMs inv
          (of_decide_eq_true hgood)

theorem HSInv_applyHighlightEvents :
    ∀ (es : List HighlightEvent) (st st' : HighlightState),
      HSInv st → goodEvents st es = true →
      applyHighlightEvents st es = some st' → HSInv st'
  | [], st, st', inv, _, happ => (Option.some_inj.mp happ) ▸ inv
  | e :: rest, st, st', inv, hgood, happ => by
    rw [goodEvents, Bool.and_eq_true] at hgood
    obtain ⟨hg1, hg2⟩ := hgood
    cases hap : applyHighlightEventInPlace st e with
    | none =>
      have : applyHighlightEvents st (e :: rest) = none := by
        show applyHighlightEventInPlace st e >>= _ = none
        rw [hap]
        rfl
      rw [this] at happ
      exact Option.noConfusion happ
    | some st1 =>
      have hrest : applyHighlightEvents st1 rest = some st' := by
        have : applyHighlightEvents st (e :: rest) =
            applyHighlightEvents st1 rest := by
          show applyHighlightEventInPlace st e >>= _ = _
          rw [hap]
          rfl
        rw [← this]
        exact happ
      have hg2' : goodEvents st1 rest = true := by
        rw [hap] at hg2
        exact hg2
      exact HSInv_applyHighlightEvents rest st1 st'
        (HSInv_applyHighlightEventInPlace st e st1 inv hg1 hap) hg2' hrest

theorem HSInv_runOp (st : HighlightState) (op : HighlightOp) (st' : HighlightState)
    (inv : HSInv st) (hgood : goodOp st op = true) (h : runOp st op = some st') :
    HSInv st' := by
  cases op with
  | events es => exact HSInv_applyHighlightEvents es st st' inv hgood h
  | clearForSource s =>
    exact (Option.some_inj.mp h) ▸ HSInv_clearHighlightsByPredicate st _ inv
  | clearExceptInput =>
    exact (Option.some_inj.mp h) ▸ HSInv_clearHighlightsByPredicate st _ inv

theorem HSInv_runOps :
    ∀ (ops : List HighlightOp) (st st' : HighlightState),
      HSInv st → goodOps st ops = true → runOps st ops = some st' → HSInv st'
  | [], st, st', inv, _, h => (Option.some_inj.mp h) ▸ inv
  | op :: rest, st, st', inv, hgood, h => by
    rw [goodOps, Bool.and_eq_true] at hgood
    obtain ⟨hg1, hg2⟩ := hgood
    cases hop : runOp st op with
    | none =>
      have : runOps st (op :: rest) = none := by
        show runOp st op >>= _ = none
        rw [hop]
        rfl
      rw [this] at h
      exact Option.noConfusion h
    | some st1 =>
      have hrest : runOps st1 rest = some st' := by
        have : runOps st (op :: rest) = runOps st1 rest := by
          show runOp st op >>= _ = _
          rw [hop]
          rfl
        rw [← this]
        exact h
      have hg2' : goodOps st1 rest = true := by
        rw [hop] at hg2
        exact hg2
      exact HSInv_runOps rest st1 st' (HSInv_runOp st op st1 inv hg1 hop) hg2' hrest

theorem HSInv_createHighlightState : HSInv createHighlightState := by
  refine ⟨?_, ?_, ?_, ?_, ?_, ?_, ?_, ?_⟩ <;>
    simp [createHighlightState, keysOf, pitchKeySum, mapSumQ, mapSum, jsGet]

theorem HSInv_conclusions (st : HighlightState) (inv : HSInv st) (p : Fin 128) :
    st.totalsByNote p = mapSum (st.sourcesByNote p) ∧
    st.totalsByNote p = pitchKeySum st.countsByActiveKey p ∧
    (st.totalsByNote p = 0 ↔
      (st.countsByActiveKey.filter (fun e => keyHasPitch p e.1) = [] ∧
       st.sourcesByNote p = [])) := by
  refine ⟨inv.totalsSrc p, inv.totalsKey p, ?_, ?_⟩
  · intro h0
    constructor
    · refine filter_eq_nil_of_mapSumQ_zero (keyHasPitch p) _ inv.countPos ?_
      rw [show mapSumQ (keyHasPitch p) st.countsByActiveKey =
        pitchKeySum st.countsByActiveKey p from rfl, ← inv.totalsKey p]
      exact h0
    · refine (mapSum_eq_zero_iff _ (inv.srcPos p)).mp ?_
      rw [← inv.totalsSrc p]
      exact h0
  · intro h
    rw [inv.totalsSrc p, h.2]
    rfl

/-- C1 counterexample: from the fresh state, an On for `(60, "a")`
followed by an unmatched Off for `(60, "b")` leaves
`totalsByNote[60] = 0` while the active-key map still holds `"a:60"`
with count 1 and the source breakdown for pitch 60 still sums to 1 —
the three quantities of the claimed invariant do not agree, so the
invariant fails under arbitrary event lists. -/
theorem conservation_counterexample :
    runOps createHighlightState [.events cexEvents] = some cexState ∧
    cexState.totalsByNote 60 = 0 ∧
    pitchKeySum cexState.countsByActiveKey 60 = 1 ∧
    mapSum (cexState.sourcesByNote 60) = 1 ∧
    ¬(cexState.totalsByNote 60 = pitchKeySum cexState.countsByActiveKey 60) :=
  ⟨rfl, by decide, by decide, by decide, by decide⟩

/-- C1 amended: starting from the freshly created highlight state, after
any sequence of operations (`applyHighlightEvents` over event lists,
`clearHighlightsForSource`, `clearHighlightsExceptInput`) in which every
Off event is matched — its `(sourceKey, pitch)` key holds a positive
active count at the moment it applies — the conservation invariant
holds: for every pitch `p`, `totalsByNote[p]` equals the sum of the
source breakdown of `p` and equals the sum over active keys of pitch
`p`, and the total is 0 exactly when pitch `p` has no active-key entries
and no source-breakdown entries.  (The unmatched-Off restriction is
forced by `conservation_counterexample`.) -/
theorem conservation_invariant (ops : List HighlightOp) (st : HighlightState)
    (h1 : runOps createHighlightState ops = some st)
    (h2 : goodOps createHighlightState ops = true) :
    ∀ p : Fin 128,
      st.totalsByNote p = mapSum (st.sourcesByNote p) ∧
      st.totalsByNote p = pitchKeySum st.countsByActiveKey p ∧
      (st.totalsByNote p = 0 ↔
        (st.countsByActiveKey.filter (fun e => keyHasPitch p e.1) = [] ∧
         st.sourcesByNote p = [])) :=
  fun p => HSInv_conclusions st
    (HSInv_runOps ops createHighlightState st HSInv_createHighlightState h2 h1) p

/-- Witness: the conservation invariant evaluated after a concrete
matched run — two sources light up, one Off retires the playback note,
then a live-input-preserving clear runs. -/
theorem conservation_invariant_witness :
    runOps createHighlightState goodRunOps = some goodRunState ∧
    goodOps createHighlightState goodRunOps = true ∧
    ∀ p : Fin 128,
      goodRunState.totalsByNote p = mapSum (goodRunState.sourcesByNote p) ∧
      goodRunState.totalsByNote p = pitchKeySum goodRunState.countsByActiveKey p ∧
      (goodRunState.totalsByNote p = 0 ↔
        (goodRunState.countsByActiveKey.filter (fun e => keyHasPitch p e.1) = [] ∧
         goodRunState.sourcesByNote p = [])) :=
  ⟨rfl, by decide, conservation_invariant goodRunOps goodRunState rfl (by decide)⟩

end Lumina
